import Mathlib

/-!
Verification development for the slab daemon's windowed time-series store and
tie-corrected Mann-Kendall trend engine (src/slabDaemon.c, function `monitor`).

The per-entity state (`struct slab_MK`) is embedded shallowly:
* the doubly linked sample series `sValues` (newest first) becomes a
  `List Sample` whose head is the newest sample;
* the two window-boundary pointers `lastMID_TERM` / `lastSHORT_TERM` become
  optional indices counted from the oldest end of the series (that index is
  stable when a new sample is prepended at the head, exactly as a pointer into
  the linked list is); `none` models a NULL pointer, which the C code produces
  when the boundary advances past the head of the list;
* the three tie-histogram lists (`struct slab_buckets`) become `List Bucket`;
* sample values (`nr_active_objs * obj_size`, exact integers stored in C
  doubles) and timestamps (`i * delay`) are embedded as `Int`;
* the floating-point tail of the pipeline (sqrt, z-score, trend comparison
  against 1.96) is idealised over `ℝ`; everything before it is exact
  (`Int` / `ℚ`) and computable.

A cycle for one entity is `monitorStep`; dereferencing a NULL boundary pointer
(undefined behaviour in the C code) is modelled by returning `none`.
-/

namespace SlabDaemon

/-- Mid-term retention window in seconds (#define MID_TERM 3600). -/
def MID_TERM : Int := 3600

/-- Short-term retention window in seconds (#define SHORT_TERM 900). -/
def SHORT_TERM : Int := 900

/-- One sample of `struct s`: a timestamp and the sampled value. -/
structure Sample where
  timestamp : Int
  value : Int
deriving DecidableEq, Repr

/-- One tie bucket of `struct slab_buckets`: a value and its tie count. -/
structure Bucket where
  value : Int
  tied : Int
deriving DecidableEq, Repr

/-- Per-entity state of `struct slab_MK`.  `sValues` is the sample series,
newest sample first.  `lastMID` / `lastSHORT` are the window boundary
references, given as the number of samples strictly older than the referenced
node (an index from the oldest end, which is invariant under inserting a new
head); `none` models the NULL pointer obtained when the boundary advances past
the newest node. -/
structure SlabMK where
  sValues : List Sample
  lastMID : Option Nat
  lastSHORT : Option Nat
  tiedbucketsTotal : List Bucket
  tiedbucketsMID : List Bucket
  tiedbucketsSHORT : List Bucket
deriving DecidableEq, Repr

/-- `searchBucket` of the C source: linear search for the first bucket holding
exactly this value, `none` when no bucket matches. -/
def searchBucket : List Bucket → Int → Option Bucket
  | [], _ => none
  | b :: bs, v => if b.value = v then some b else searchBucket bs v

/-- Adjust the tie count of the first bucket holding `v` by `d` (the in-place
`tied += 1` / `tied -= 1` of the C source applied through the found pointer). -/
def bumpBucket : List Bucket → Int → Int → List Bucket
  | [], _, _ => []
  | b :: bs, v, d => if b.value = v then { b with tied := b.tied + d } :: bs
                     else b :: bumpBucket bs v d

/-- Histogram insertion for one horizon (lines 319-351 of the source): if a
bucket with this value exists its count is incremented, otherwise a fresh
bucket `{value, tied:1}` is pushed on the front of the bucket list. -/
def insertBucket (h : List Bucket) (v : Int) : List Bucket :=
  match searchBucket h v with
  | some _ => bumpBucket h v 1
  | none => { value := v, tied := 1 } :: h

/-- Histogram decrement on boundary retirement (lines 296-311): if a bucket
with this value exists its count is decremented; a missing bucket is silently
skipped (the C code guards the decrement with `if (tiedbucket...)`), and the
bucket is kept even when its count reaches zero. -/
def retireBucket (h : List Bucket) (v : Int) : List Bucket :=
  match searchBucket h v with
  | some _ => bumpBucket h v (-1)
  | none => h

/-- The series node referenced by a boundary index: index `i` from the oldest
end of the newest-first list `l`. -/
def nodeAt (l : List Sample) (i : Nat) : Option Sample :=
  l[l.length - 1 - i]?

/-- One boundary-retirement check for one bounded horizon (the single `if` at
lines 297-304 resp. 305-311): if the referenced sample has aged out of the
window, decrement its value's bucket and advance the reference to the
next-newer node (NULL when the referenced node was the head).  A `none`
boundary is a NULL pointer: the C code dereferences it unconditionally, which
is modelled as a crash (`none` result). -/
def retireStep (sv : List Sample) (timestamp window : Int)
    (boundary : Option Nat) (hist : List Bucket) :
    Option (Option Nat × List Bucket) :=
  match boundary with
  | none => none
  | some i =>
    match nodeAt sv i with
    | none => none
    | some nd =>
      if timestamp - window > nd.timestamp then
        some (if i + 1 < sv.length then some (i + 1) else none,
              retireBucket hist nd.value)
      else
        some (some i, hist)

/-- First-ever sample for an entity (lines 265-294): a one-node series, both
boundaries on that node, and each histogram seeded with one bucket
`{value, tied:1}`. -/
def initSlabMK (timestamp v : Int) : SlabMK :=
  { sValues := [{ timestamp := timestamp, value := v }]
    lastMID := some 0
    lastSHORT := some 0
    tiedbucketsTotal := [{ value := v, tied := 1 }]
    tiedbucketsMID := [{ value := v, tied := 1 }]
    tiedbucketsSHORT := [{ value := v, tied := 1 }] }

/-- Subsequent-sample retention update (lines 296-356): boundary retirement
for both bounded horizons, histogram insertion into all three horizons, then
the new sample becomes the head of the series. -/
def updateSlabMK (st : SlabMK) (timestamp v : Int) : Option SlabMK :=
  match retireStep st.sValues timestamp MID_TERM st.lastMID st.tiedbucketsMID with
  | none => none
  | some (bM, hM) =>
    match retireStep st.sValues timestamp SHORT_TERM st.lastSHORT st.tiedbucketsSHORT with
    | none => none
    | some (bS, hS) =>
      some { sValues := { timestamp := timestamp, value := v } :: st.sValues
             lastMID := bM
             lastSHORT := bS
             tiedbucketsTotal := insertBucket st.tiedbucketsTotal v
             tiedbucketsMID := insertBucket hM v
             tiedbucketsSHORT := insertBucket hS v }

/-- Run the retention manager over a whole observation trace (oldest first):
the first observation creates the entity state, each further one updates it.
`none` is the crash of a NULL boundary dereference (or the empty trace). -/
def runTrace1 (st : SlabMK) : List (Int × Int) → Option SlabMK
  | [] => some st
  | (t, v) :: rest =>
    match updateSlabMK st t v with
    | none => none
    | some st2 => runTrace1 st2 rest

/-- See `runTrace1`; a trace is the list of `(timestamp, value)` observations
of one entity, oldest first. -/
def runTrace : List (Int × Int) → Option SlabMK
  | [] => none
  | (t, v) :: rest => runTrace1 (initSlabMK t v) rest

/-- The in-window test used throughout the statistic loop:
`s->timestamp >= timestamp - window`. -/
def inWindow (t w : Int) (s : Sample) : Bool :=
  decide (t - w ≤ s.timestamp)

/-- Inner loop of the pairwise scan (lines 377-396): contributions of all
pairs formed by the fixed newer sample `a` against every older sample of
`rest`, accumulated into (total, mid-term, short-term). -/
def innerScan (t : Int) (a : Sample) : List Sample → Int × Int × Int
  | [] => (0, 0, 0)
  | b :: rest =>
    let r := innerScan t a rest
    if b.value < a.value then
      (r.1 + 1,
       r.2.1 + (if inWindow t MID_TERM a && inWindow t MID_TERM b then 1 else 0),
       r.2.2 + (if inWindow t SHORT_TERM a && inWindow t SHORT_TERM b then 1 else 0))
    else if a.value < b.value then
      (r.1 - 1,
       r.2.1 - (if inWindow t MID_TERM a && inWindow t MID_TERM b then 1 else 0),
       r.2.2 - (if inWindow t SHORT_TERM a && inWindow t SHORT_TERM b then 1 else 0))
    else r

/-- Outer loop of the pairwise scan (lines 374-405): one pass over the whole
series computing the three S accumulators
(`accumTotal`, `accumMID_TERM`, `accumSHORT_TERM`) at once. -/
def outerScan (t : Int) : List Sample → Int × Int × Int
  | [] => (0, 0, 0)
  | a :: rest =>
    let inner := innerScan t a rest
    let outer := outerScan t rest
    (inner.1 + outer.1, inner.2.1 + outer.2.1, inner.2.2 + outer.2.2)

/-- The per-horizon sample counter of the outer loop (`counterMID_TERM` /
`counterSHORT_TERM`): number of series nodes inside the window. -/
def counterWin (t w : Int) : List Sample → Int
  | [] => 0
  | s :: rest => (if inWindow t w s then 1 else 0) + counterWin t w rest

/-- The tie-correction sum (lines 408-434): over every bucket of the horizon's
histogram with `tied > 1`, accumulate `tied*(tied-1)*(2*tied+5)`. -/
def secondPartVar : List Bucket → Int
  | [] => 0
  | b :: bs =>
    (if 1 < b.tied then b.tied * (b.tied - 1) * (2 * b.tied + 5) else 0)
      + secondPartVar bs

/-- `firstPartVariance` (lines 435-437 etc.): `n*(n-1)*(2*n+5)` when the
horizon holds more than one sample, `0` otherwise. -/
def firstPartVar (c : Int) : Int :=
  if 1 < c then c * (c - 1) * (2 * c + 5) else 0

/-- The tie-corrected variance `varS = (firstPart - secondPart)/18`, computed
only when the horizon's counter exceeds one and left at its initial `0`
otherwise (lines 436-444 etc.).  The C double division is idealised as exact
division in `ℚ`. -/
def varOf (c fp sp : Int) : ℚ :=
  if 1 < c then ((fp - sp : Int) : ℚ) / 18 else 0

/-- The exact (pre-floating-point) per-horizon outputs of the statistic
engine: S accumulator, in-window counter, the two variance parts, and the
variance. -/
structure RawStats where
  accum : Int
  counter : Int
  firstPart : Int
  secondPart : Int
  varS : ℚ
deriving DecidableEq, Repr

/-- Total-horizon statistics of one cycle at time `t`. -/
def rawTotal (t : Int) (st : SlabMK) : RawStats :=
  let a := (outerScan t st.sValues).1
  let c := (st.sValues.length : Int)
  let fp := firstPartVar c
  let sp := secondPartVar st.tiedbucketsTotal
  { accum := a, counter := c, firstPart := fp, secondPart := sp
    varS := varOf c fp sp }

/-- Mid-term-horizon statistics of one cycle at time `t`. -/
def rawMID (t : Int) (st : SlabMK) : RawStats :=
  let a := (outerScan t st.sValues).2.1
  let c := counterWin t MID_TERM st.sValues
  let fp := firstPartVar c
  let sp := secondPartVar st.tiedbucketsMID
  { accum := a, counter := c, firstPart := fp, secondPart := sp
    varS := varOf c fp sp }

/-- Short-term-horizon statistics of one cycle at time `t`. -/
def rawSHORT (t : Int) (st : SlabMK) : RawStats :=
  let a := (outerScan t st.sValues).2.2
  let c := counterWin t SHORT_TERM st.sValues
  let fp := firstPartVar c
  let sp := secondPartVar st.tiedbucketsSHORT
  { accum := a, counter := c, firstPart := fp, secondPart := sp
    varS := varOf c fp sp }

/-- The Z-score threshold `criticalValue = 1.96` of the source. -/
noncomputable def criticalValue : ℝ := 1.96

/-- The z-score of one horizon (lines 436-444 etc.), idealising the C double
arithmetic over `ℝ`: `z` keeps its initial `0` when the counter is at most
one, and is otherwise `(S+1)/sqrt(varS)`, `(S-1)/sqrt(varS)` or `0` according
to the sign of `S`. -/
noncomputable def zOf (r : RawStats) : ℝ :=
  if 1 < r.counter then
    if r.accum < 0 then ((r.accum + 1 : Int) : ℝ) / Real.sqrt ((r.varS : ℝ))
    else if 0 < r.accum then ((r.accum - 1 : Int) : ℝ) / Real.sqrt ((r.varS : ℝ))
    else 0
  else 0

/-- The emitted trend flag of one horizon (lines 445-453 etc.):
`"YES"` exactly in the branch `fabs(z) > criticalValue && z > 0`, `"NO"` in
every other branch. -/
noncomputable def trendOf (r : RawStats) : String :=
  if criticalValue < |zOf r| then (if 0 < zOf r then "YES" else "NO") else "NO"

/-! ### Specification-side definitions

These follow the wording of the specification (not the code); the theorems
below compare them with the code-shaped definitions above. -/

/-- The sign of an integer difference, as in the spec's
`sign(value(a) - value(b))`. -/
def sign (x : Int) : Int :=
  if 0 < x then 1 else if x < 0 then -1 else 0

/-- Spec-style Mann-Kendall S over the whole series (newest first): the sum
over all unordered pairs of `sign(value(newer) - value(older))`. -/
def pairSigns : List Sample → Int
  | [] => 0
  | a :: rest => (rest.map fun b => sign (a.value - b.value)).sum + pairSigns rest

/-- Spec-style windowed Mann-Kendall S: the same pair sum restricted to pairs
whose two samples both lie inside the window. -/
def pairSignsWin (t w : Int) : List Sample → Int
  | [] => 0
  | a :: rest =>
    (rest.map fun b =>
      if inWindow t w a && inWindow t w b then sign (a.value - b.value) else 0).sum
      + pairSignsWin t w rest

/-- Spec-style tie-corrected variance:
`(n(n-1)(2n+5) - Σ_{tied_g>1} tied_g(tied_g-1)(2 tied_g+5)) / 18`,
with `g` ranging exactly over the histogram buckets with `tied > 1`. -/
def varianceSpec (n : Int) (h : List Bucket) : ℚ :=
  ((n * (n - 1) * (2 * n + 5)
      - ((h.filter fun b => decide (1 < b.tied)).map
          fun b => b.tied * (b.tied - 1) * (2 * b.tied + 5)).sum : Int) : ℚ) / 18

/-- Spec-style z-score: `(S-1)/sqrt(v)` if `S > 0`, `(S+1)/sqrt(v)` if
`S < 0`, `0` if `S = 0`. -/
noncomputable def zSpec (S : Int) (v : ℚ) : ℝ :=
  if 0 < S then ((S - 1 : Int) : ℝ) / Real.sqrt ((v : ℝ))
  else if S < 0 then ((S + 1 : Int) : ℝ) / Real.sqrt ((v : ℝ))
  else 0

/-! ### Bookkeeping definitions used by the invariants -/

/-- Total tie count recorded in a histogram for one value (the sum over every
bucket holding exactly that value). -/
def tiedCount : List Bucket → Int → Int
  | [], _ => 0
  | b :: bs, w => (if b.value = w then b.tied else 0) + tiedCount bs w

/-- Sum of the tie counts of all buckets of a histogram. -/
def sumTied : List Bucket → Int
  | [] => 0
  | b :: bs => b.tied + sumTied bs

/-- Number of occurrences of a value among the observations of a trace. -/
def countVal : List (Int × Int) → Int → Int
  | [], _ => 0
  | p :: tr, w => (if p.2 = w then 1 else 0) + countVal tr w

/-- Number of occurrences of a value in a list of values. -/
def countIn : List Int → Int → Int
  | [], _ => 0
  | x :: xs, w => (if x = w then 1 else 0) + countIn xs w

/-- The samples of a trace, oldest first. -/
def mkSamples (tr : List (Int × Int)) : List Sample :=
  tr.map fun p => { timestamp := p.1, value := p.2 }

/-- Relation between one horizon's histogram, the trace processed so far, and
the number `r` of samples already retired from that horizon (always the `r`
oldest): per-value tie counts are insertions minus retirements, every observed
value owns a bucket, bucket values are pairwise distinct and all stem from the
trace, and the total tie count is the number of unretired samples. -/
def histInv (tr : List (Int × Int)) (r : Nat) (h : List Bucket) : Prop :=
  (∀ w : Int, tiedCount h w = countVal tr w - countVal (tr.take r) w) ∧
  (∀ p ∈ tr, p.2 ∈ h.map Bucket.value) ∧
  (h.map Bucket.value).Nodup ∧
  (∀ u ∈ h.map Bucket.value, u ∈ tr.map Prod.snd) ∧
  sumTied h = (tr.length : Int) - (r : Int) ∧
  r ≤ tr.length

/-- Shape of a boundary reference when `r` samples have been retired from its
horizon out of a series of `n`: either it references the oldest unretired
node, or it is the NULL obtained by advancing past the head (possible only
when every older node was retired and the head itself was then retired). -/
def boundaryRel (b : Option Nat) (r n : Nat) : Prop :=
  (b = some r ∧ r < n) ∨ (b = none ∧ r + 1 = n)

/-- Reachable-state invariant of the retention manager, for an arbitrary
observation trace. -/
def StateInv (tr : List (Int × Int)) (st : SlabMK) : Prop :=
  st.sValues = (mkSamples tr).reverse ∧
  ∃ rM rS : Nat,
    boundaryRel st.lastMID rM tr.length ∧
    boundaryRel st.lastSHORT rS tr.length ∧
    histInv tr 0 st.tiedbucketsTotal ∧
    histInv tr rM st.tiedbucketsMID ∧
    histInv tr rS st.tiedbucketsSHORT

/-! ### Constant-interval traces -/

/-- Observations at a constant sampling interval `d`, starting at index `i`:
the sample of index `i` carries timestamp `i*d`. -/
def ctraceFrom (d : Int) : Nat → List Int → List (Int × Int)
  | _, [] => []
  | i, v :: vs => ((i : Int) * d, v) :: ctraceFrom d (i + 1) vs

/-- Observations of the given values at a constant sampling interval `d`
(an entity reported on every cycle, timestamps `0, d, 2d, ...`). -/
def ctrace (d : Int) (vs : List Int) : List (Int × Int) :=
  ctraceFrom d 0 vs

/-- Number of samples retired from a window of width `w` after the cycle of
the sample with index `j`, for constant interval `d`: one retirement per
cycle whenever the oldest unretired sample has aged out, exactly as the
single-step boundary advance performs. -/
def retCount (d w : Int) : Nat → Nat
  | 0 => 0
  | j + 1 =>
    retCount d w j +
      (if (retCount d w j : Int) * d < ((j : Int) + 1) * d - w then 1 else 0)

/-- The boundary reference after the cycle of sample index `j` when `m`
samples were retired: the node of index `m`, or NULL when the retirement
advanced past the head. -/
def bdShape (m j : Nat) : Option Nat :=
  if m < j ∨ j = 0 then some m else none

/-! ### Concrete inputs used by witnesses and counterexamples -/

/-- Placeholder for reading a crashed run; never a reachable state. -/
def dflt : SlabMK :=
  { sValues := [], lastMID := none, lastSHORT := none
    tiedbucketsTotal := [], tiedbucketsMID := [], tiedbucketsSHORT := [] }

/-- The values `1..30`. -/
def cvals30 : List Int := (List.range 30).map fun i => (i : Int) + 1

/-- Thirty strictly increasing samples at the default 30s delay
(timestamps `0, 30, ..., 870`). -/
def trace30 : List (Int × Int) := ctrace 30 cvals30

/-- A trace with a reporting gap: the entity is seen at `t = 0` and `t = 30`,
then not reported again until `t = 1200`, so both early samples have aged out
of the short-term window at once. -/
def gapTrace : List (Int × Int) := [(0, 10), (30, 20), (1200, 30)]

/-- The entity state at the end of the third cycle of `gapTrace`. -/
def gapState : SlabMK := (runTrace gapTrace).getD dflt

/-- Claim C5 as stated: the boundary retirement is a `while` loop, so at the
end of every cycle on an already-known entity no boundary can still reference
a sample that has aged out of its window. -/
def retiredOut (t w : Int) (b : Option Nat) (sv : List Sample) : Prop :=
  ∀ i nd, b = some i → nodeAt sv i = some nd → ¬ (nd.timestamp < t - w)

/-- Formalisation of claim C5's general part (loop semantics of boundary
retirement). -/
def C5Statement : Prop :=
  ∀ (tr : List (Int × Int)) (t v : Int) (st : SlabMK),
    tr ≠ [] → runTrace (tr ++ [(t, v)]) = some st →
    retiredOut t MID_TERM st.lastMID st.sValues ∧
    retiredOut t SHORT_TERM st.lastSHORT st.sValues

/-- Amended boundary invariant for one bounded horizon over a
constant-interval trace `ctrace d (v0 :: vs)` at the end of the last cycle
(time `vs.length * d`): the boundary references the node of index
`retCount d W vs.length`; that node is in-window, every node of index at
least the boundary's is in-window, every older node has aged out, and the
horizon's histogram counts are the insertions minus the retirements of
exactly those older nodes. -/
def C7Amended (d W v0 : Int) (vs : List Int) (bd : Option Nat)
    (hist : List Bucket) (sv : List Sample) : Prop :=
  bd = some (retCount d W vs.length) ∧
  (∃ nd, nodeAt sv (retCount d W vs.length) = some nd ∧
     (vs.length : Int) * d - W ≤ nd.timestamp) ∧
  (∀ i nd, i < sv.length → nodeAt sv i = some nd →
     ((retCount d W vs.length ≤ i → (vs.length : Int) * d - W ≤ nd.timestamp) ∧
      (i < retCount d W vs.length → nd.timestamp < (vs.length : Int) * d - W))) ∧
  (∀ u : Int, tiedCount hist u =
     countVal (ctrace d (v0 :: vs)) u -
       countVal ((ctrace d (v0 :: vs)).take (retCount d W vs.length)) u)

/-- Formalisation of claim C6 as stated: at the end of every cycle, each
horizon's total tie count equals its in-window sample count. -/
def C6Statement : Prop :=
  ∀ (tr : List (Int × Int)) (t v : Int) (st : SlabMK),
    runTrace (tr ++ [(t, v)]) = some st →
    sumTied st.tiedbucketsTotal = (st.sValues.length : Int) ∧
    sumTied st.tiedbucketsMID = counterWin t MID_TERM st.sValues ∧
    sumTied st.tiedbucketsSHORT = counterWin t SHORT_TERM st.sValues

/-- Formalisation of claim C7 as stated: at the end of every cycle, each
bounded-horizon boundary references an existing node that is in-window and
oldest among the in-window nodes. -/
def C7Statement : Prop :=
  ∀ (tr : List (Int × Int)) (t v : Int) (st : SlabMK),
    runTrace (tr ++ [(t, v)]) = some st →
    (∃ i nd, st.lastSHORT = some i ∧ nodeAt st.sValues i = some nd ∧
       t - SHORT_TERM ≤ nd.timestamp ∧
       ∀ j nd2, j < st.sValues.length → nodeAt st.sValues j = some nd2 →
         t - SHORT_TERM ≤ nd2.timestamp → nd.timestamp ≤ nd2.timestamp) ∧
    (∃ i nd, st.lastMID = some i ∧ nodeAt st.sValues i = some nd ∧
       t - MID_TERM ≤ nd.timestamp ∧
       ∀ j nd2, j < st.sValues.length → nodeAt st.sValues j = some nd2 →
         t - MID_TERM ≤ nd2.timestamp → nd.timestamp ≤ nd2.timestamp)

/-! ### The pairwise scan computes the spec's pair sums -/

/-- Inner-loop characterisation: the contributions of one newer sample
against all older samples are the spec's signed pair sums. -/
theorem innerScan_eq (t : Int) (a : Sample) (l : List Sample) :
    innerScan t a l =
      ((l.map fun b => sign (a.value - b.value)).sum,
       (l.map fun b =>
         if inWindow t MID_TERM a && inWindow t MID_TERM b then
           sign (a.value - b.value) else 0).sum,
       (l.map fun b =>
         if inWindow t SHORT_TERM a && inWindow t SHORT_TERM b then
           sign (a.value - b.value) else 0).sum) := by
  induction l with
  | nil => simp [innerScan]
  | cons b l ih =>
    rcases lt_trichotomy a.value b.value with hv | hv | hv
    · have h1 : ¬ b.value < a.value := by omega
      have hs : sign (a.value - b.value) = -1 := by
        simp only [sign]
        rw [if_neg (by omega), if_pos (by omega)]
      simp only [innerScan, ih, List.map_cons, List.sum_cons, if_neg h1, if_pos hv, hs,
        Prod.mk.injEq]
      refine ⟨by omega, ?_, ?_⟩ <;> (split_ifs <;> omega)
    · have h1 : ¬ b.value < a.value := by omega
      have h2 : ¬ a.value < b.value := by omega
      have hs : sign (a.value - b.value) = 0 := by
        simp only [sign]
        rw [if_neg (by omega), if_neg (by omega)]
      simp only [innerScan, ih, List.map_cons, List.sum_cons, if_neg h1, if_neg h2, hs,
        Prod.mk.injEq]
      refine ⟨by omega, ?_, ?_⟩ <;> (split_ifs <;> omega)
    · have hs : sign (a.value - b.value) = 1 := by
        simp only [sign]
        rw [if_pos (by omega)]
      simp only [innerScan, ih, List.map_cons, List.sum_cons, if_pos hv, hs,
        Prod.mk.injEq]
      refine ⟨by omega, ?_, ?_⟩ <;> (split_ifs <;> omega)

/-- The single pairwise scan of the statistic engine computes, in one pass,
the spec's unrestricted pair sum and both window-restricted pair sums. -/
theorem outerScan_eq (t : Int) (l : List Sample) :
    outerScan t l =
      (pairSigns l, pairSignsWin t MID_TERM l, pairSignsWin t SHORT_TERM l) := by
  induction l with
  | nil => simp [outerScan, pairSigns, pairSignsWin]
  | cons a l ih =>
    simp only [outerScan, innerScan_eq, ih, pairSigns, pairSignsWin]

/-- C2: at the end of every cycle at time `t`, `S_total` is the sum over all
unordered sample pairs of the whole series of `sign(value(newer) -
value(older))`, and `S_mid`/`S_short` are the same sum restricted to pairs
with both members inside the 3600s resp. 900s window; all three are produced
by the single pairwise scan `outerScan` (total unconditionally, mid/short only
when both pair members are in-window). -/
theorem mk_C2 (tr : List (Int × Int)) (t : Int) (st : SlabMK)
    (hrun : runTrace tr = some st) :
    outerScan t st.sValues =
      (pairSigns st.sValues, pairSignsWin t MID_TERM st.sValues,
       pairSignsWin t SHORT_TERM st.sValues) ∧
    (rawTotal t st).accum = pairSigns st.sValues ∧
    (rawMID t st).accum = pairSignsWin t MID_TERM st.sValues ∧
    (rawSHORT t st).accum = pairSignsWin t SHORT_TERM st.sValues := by
  have h := outerScan_eq t st.sValues
  refine ⟨h, ?_, ?_, ?_⟩ <;> simp [rawTotal, rawMID, rawSHORT, h]

/-- Closed witness for `mk_C2`. -/
theorem mk_C2_witness :
    outerScan 30 gapState.sValues =
      (pairSigns gapState.sValues, pairSignsWin 30 MID_TERM gapState.sValues,
       pairSignsWin 30 SHORT_TERM gapState.sValues) ∧
    (rawTotal 30 gapState).accum = pairSigns gapState.sValues ∧
    (rawMID 30 gapState).accum = pairSignsWin 30 MID_TERM gapState.sValues ∧
    (rawSHORT 30 gapState).accum = pairSignsWin 30 SHORT_TERM gapState.sValues :=
  mk_C2 gapTrace 30 gapState rfl

/-! ### Trend decision -/

/-- The branch structure of the trend emission yields `"YES"` precisely when
`|z| > criticalValue` and `z > 0`. -/
theorem trendOf_eq_yes_iff (r : RawStats) :
    trendOf r = "YES" ↔ criticalValue < |zOf r| ∧ 0 < zOf r := by
  have hne : ("NO" : String) ≠ "YES" := by decide
  unfold trendOf
  by_cases h1 : criticalValue < |zOf r|
  · by_cases h2 : 0 < zOf r
    · rw [if_pos h1, if_pos h2]
      exact ⟨fun _ => ⟨h1, h2⟩, fun _ => rfl⟩
    · rw [if_pos h1, if_neg h2]
      exact ⟨fun h => absurd h hne, fun h => absurd h.2 h2⟩
  · rw [if_neg h1]
    exact ⟨fun h => absurd h hne, fun h => absurd h.1 h1⟩

/-- C1: for every entity state and every horizon, the emitted trend flag is
`"YES"` iff `|Z| > criticalValue` and `Z > 0`; every other case (including a
significant decrease) yields `"NO"`.  The critical value is the source's
1.96. -/
theorem mk_C1 (t : Int) (st : SlabMK) :
    criticalValue = (1.96 : ℝ) ∧
    (trendOf (rawTotal t st) = "YES" ↔
      criticalValue < |zOf (rawTotal t st)| ∧ 0 < zOf (rawTotal t st)) ∧
    (trendOf (rawMID t st) = "YES" ↔
      criticalValue < |zOf (rawMID t st)| ∧ 0 < zOf (rawMID t st)) ∧
    (trendOf (rawSHORT t st) = "YES" ↔
      criticalValue < |zOf (rawSHORT t st)| ∧ 0 < zOf (rawSHORT t st)) :=
  ⟨rfl, trendOf_eq_yes_iff _, trendOf_eq_yes_iff _, trendOf_eq_yes_iff _⟩

/-! ### Variance -/

/-- The code's conditional accumulation over the bucket list equals the
spec's sum over the buckets with `tied > 1`. -/
theorem secondPartVar_eq (h : List Bucket) :
    secondPartVar h =
      ((h.filter fun b => decide (1 < b.tied)).map
        fun b => b.tied * (b.tied - 1) * (2 * b.tied + 5)).sum := by
  induction h with
  | nil => rfl
  | cons b bs ih =>
    by_cases hb : 1 < b.tied
    · simp [secondPartVar, hb, ih, List.filter_cons]
    · simp [secondPartVar, hb, ih, List.filter_cons]

/-- Variance characterisation for one horizon. -/
theorem varOf_spec (c : Int) (h : List Bucket) :
    (1 < c → varOf c (firstPartVar c) (secondPartVar h) = varianceSpec c h) ∧
    (c ≤ 1 → varOf c (firstPartVar c) (secondPartVar h) = 0) := by
  constructor
  · intro hc
    simp [varOf, firstPartVar, varianceSpec, hc, secondPartVar_eq]
  · intro hc
    have hc2 : ¬ (1 < c) := by omega
    simp [varOf, hc2]

/-- C3: for every horizon whose in-window counter exceeds one, the computed
variance is `(n(n-1)(2n+5) - Σ_g tied_g(tied_g-1)(2 tied_g+5))/18` with `g`
ranging exactly over the horizon's histogram buckets with `tied > 1`; with a
counter of at most one the variance is left at `0`. -/
theorem mk_C3 (t : Int) (st : SlabMK) :
    ((1 < (rawTotal t st).counter →
        (rawTotal t st).varS = varianceSpec (rawTotal t st).counter st.tiedbucketsTotal) ∧
      ((rawTotal t st).counter ≤ 1 → (rawTotal t st).varS = 0)) ∧
    ((1 < (rawMID t st).counter →
        (rawMID t st).varS = varianceSpec (rawMID t st).counter st.tiedbucketsMID) ∧
      ((rawMID t st).counter ≤ 1 → (rawMID t st).varS = 0)) ∧
    ((1 < (rawSHORT t st).counter →
        (rawSHORT t st).varS = varianceSpec (rawSHORT t st).counter st.tiedbucketsSHORT) ∧
      ((rawSHORT t st).counter ≤ 1 → (rawSHORT t st).varS = 0)) :=
  ⟨varOf_spec _ st.tiedbucketsTotal, varOf_spec _ st.tiedbucketsMID,
    varOf_spec _ st.tiedbucketsSHORT⟩

/-- Closed witness for `mk_C3`: a two-sample state on the significant branch
and a one-sample state on the degenerate branch. -/
theorem mk_C3_witness :
    (1 < (rawTotal 1200 gapState).counter ∧
      (rawTotal 1200 gapState).varS =
        varianceSpec (rawTotal 1200 gapState).counter gapState.tiedbucketsTotal) ∧
    ((rawSHORT 1200 gapState).counter ≤ 1 ∧ (rawSHORT 1200 gapState).varS = 0) :=
  ⟨⟨by decide, (mk_C3 1200 gapState).1.1 (by decide)⟩,
   ⟨by decide, (mk_C3 1200 gapState).2.2.2 (by decide)⟩⟩

/-! ### Z-score -/

/-- Characterisation of the z-score branch structure. -/
theorem zOf_char (r : RawStats) :
    (1 < r.counter → zOf r = zSpec r.accum r.varS) ∧
    (r.counter ≤ 1 → zOf r = 0 ∧ trendOf r = "NO") := by
  constructor
  · intro hc
    unfold zOf zSpec
    rw [if_pos hc]
    rcases lt_trichotomy r.accum 0 with h | h | h
    · rw [if_pos h, if_neg (by omega), if_pos h]
    · rw [if_neg (by omega), if_neg (by omega), if_neg (by omega), if_neg (by omega)]
    · rw [if_neg (by omega), if_pos h, if_pos h]
  · intro hc
    have h0 : zOf r = 0 := by
      unfold zOf
      rw [if_neg (by omega)]
    refine ⟨h0, ?_⟩
    unfold trendOf
    rw [h0, if_neg ?_]
    simp only [abs_zero]
    rw [criticalValue]
    norm_num

/-- C4: for every horizon, with counter above one the z-score is
`(S-1)/sqrt(variance)` when `S > 0`, `(S+1)/sqrt(variance)` when `S < 0` and
`0` when `S = 0`; with counter at most one (in particular a single-sample
entity) the z-score is `0` and the trend flag is `"NO"`. -/
theorem mk_C4 (t : Int) (st : SlabMK) :
    ((1 < (rawTotal t st).counter →
        zOf (rawTotal t st) = zSpec (rawTotal t st).accum (rawTotal t st).varS) ∧
      ((rawTotal t st).counter ≤ 1 →
        zOf (rawTotal t st) = 0 ∧ trendOf (rawTotal t st) = "NO")) ∧
    ((1 < (rawMID t st).counter →
        zOf (rawMID t st) = zSpec (rawMID t st).accum (rawMID t st).varS) ∧
      ((rawMID t st).counter ≤ 1 →
        zOf (rawMID t st) = 0 ∧ trendOf (rawMID t st) = "NO")) ∧
    ((1 < (rawSHORT t st).counter →
        zOf (rawSHORT t st) = zSpec (rawSHORT t st).accum (rawSHORT t st).varS) ∧
      ((rawSHORT t st).counter ≤ 1 →
        zOf (rawSHORT t st) = 0 ∧ trendOf (rawSHORT t st) = "NO")) :=
  ⟨zOf_char _, zOf_char _, zOf_char _⟩

/-- Closed witness for `mk_C4`: a single-sample entity has `Z = 0` and trend
`"NO"`, and a two-sample entity takes the spec's z formula. -/
theorem mk_C4_witness :
    ((rawSHORT 0 (initSlabMK 0 5)).counter ≤ 1 ∧
      zOf (rawSHORT 0 (initSlabMK 0 5)) = 0 ∧
      trendOf (rawSHORT 0 (initSlabMK 0 5)) = "NO") ∧
    (1 < (rawTotal 1200 gapState).counter ∧
      zOf (rawTotal 1200 gapState) =
        zSpec (rawTotal 1200 gapState).accum (rawTotal 1200 gapState).varS) :=
  ⟨⟨by decide, (mk_C4 0 (initSlabMK 0 5)).2.2.2 (by decide)⟩,
   ⟨by decide, (mk_C4 1200 gapState).1.1 (by decide)⟩⟩

/-! ### Initialisation -/

/-- C8: the first-ever sample of an entity creates a one-node series, points
both bounded-horizon boundaries at that node, and seeds each of the three
histograms with exactly one bucket `{value, tied:1}`. -/
theorem mk_C8 (ts v : Int) :
    runTrace [(ts, v)] = some (initSlabMK ts v) ∧
    initSlabMK ts v =
      { sValues := [{ timestamp := ts, value := v }]
        lastMID := some 0
        lastSHORT := some 0
        tiedbucketsTotal := [{ value := v, tied := 1 }]
        tiedbucketsMID := [{ value := v, tied := 1 }]
        tiedbucketsSHORT := [{ value := v, tied := 1 }] } ∧
    nodeAt (initSlabMK ts v).sValues 0 = some { timestamp := ts, value := v } :=
  ⟨rfl, rfl, rfl⟩

/-! ### Histogram bookkeeping lemmas -/

theorem searchBucket_isSome_iff (h : List Bucket) (v : Int) :
    (searchBucket h v).isSome = true ↔ v ∈ h.map Bucket.value := by
  induction h with
  | nil => simp [searchBucket]
  | cons b bs ih =>
    by_cases hb : b.value = v
    · simp [searchBucket, hb]
    · have hb2 : ¬ v = b.value := fun hx => hb hx.symm
      simp [searchBucket, hb, ih, hb2]

theorem bumpBucket_vals (h : List Bucket) (v d : Int) :
    (bumpBucket h v d).map Bucket.value = h.map Bucket.value := by
  induction h with
  | nil => rfl
  | cons b bs ih =>
    by_cases hb : b.value = v
    · simp [bumpBucket, hb]
    · simp [bumpBucket, hb, ih]

theorem tiedCount_bump (h : List Bucket) (v d w : Int)
    (hs : v ∈ h.map Bucket.value) :
    tiedCount (bumpBucket h v d) w = tiedCount h w + (if w = v then d else 0) := by
  induction h with
  | nil => simp at hs
  | cons b bs ih =>
    by_cases hb : b.value = v
    · simp only [bumpBucket, if_pos hb, tiedCount]
      split_ifs <;> omega
    · have hs2 : v ∈ bs.map Bucket.value := by
        rw [List.map_cons] at hs
        rcases List.mem_cons.1 hs with h1 | h1
        · exact absurd h1.symm hb
        · exact h1
      simp only [bumpBucket, if_neg hb, tiedCount, ih hs2]
      split_ifs <;> omega

theorem tiedCount_insertBucket (h : List Bucket) (v w : Int) :
    tiedCount (insertBucket h v) w = tiedCount h w + (if w = v then 1 else 0) := by
  cases hsb : searchBucket h v with
  | none =>
    simp only [insertBucket, hsb, tiedCount]
    split_ifs <;> omega
  | some b =>
    have hv : v ∈ h.map Bucket.value := by
      rw [← searchBucket_isSome_iff, hsb]; rfl
    simp only [insertBucket, hsb]
    exact tiedCount_bump h v 1 w hv

theorem tiedCount_retireBucket (h : List Bucket) (v w : Int)
    (hv : v ∈ h.map Bucket.value) :
    tiedCount (retireBucket h v) w = tiedCount h w - (if w = v then 1 else 0) := by
  have hsome : (searchBucket h v).isSome = true := (searchBucket_isSome_iff h v).2 hv
  cases hsb : searchBucket h v with
  | none => rw [hsb] at hsome; simp at hsome
  | some b =>
    simp only [retireBucket, hsb]
    rw [tiedCount_bump h v (-1) w hv]
    split_ifs <;> omega

theorem sumTied_bump (h : List Bucket) (v d : Int)
    (hs : v ∈ h.map Bucket.value) :
    sumTied (bumpBucket h v d) = sumTied h + d := by
  induction h with
  | nil => simp at hs
  | cons b bs ih =>
    by_cases hb : b.value = v
    · simp only [bumpBucket, if_pos hb, sumTied]
      omega
    · have hs2 : v ∈ bs.map Bucket.value := by
        rw [List.map_cons] at hs
        rcases List.mem_cons.1 hs with h1 | h1
        · exact absurd h1.symm hb
        · exact h1
      simp only [bumpBucket, if_neg hb, sumTied, ih hs2]
      omega

theorem sumTied_insertBucket (h : List Bucket) (v : Int) :
    sumTied (insertBucket h v) = sumTied h + 1 := by
  cases hsb : searchBucket h v with
  | none =>
    simp only [insertBucket, hsb, sumTied]
    omega
  | some b =>
    have hv : v ∈ h.map Bucket.value := by
      rw [← searchBucket_isSome_iff, hsb]; rfl
    simp only [insertBucket, hsb]
    exact sumTied_bump h v 1 hv

theorem sumTied_retireBucket (h : List Bucket) (v : Int)
    (hv : v ∈ h.map Bucket.value) :
    sumTied (retireBucket h v) = sumTied h - 1 := by
  have hsome : (searchBucket h v).isSome = true := (searchBucket_isSome_iff h v).2 hv
  cases hsb : searchBucket h v with
  | none => rw [hsb] at hsome; simp at hsome
  | some b =>
    simp only [retireBucket, hsb]
    rw [sumTied_bump h v (-1) hv]
    omega

theorem retireBucket_vals (h : List Bucket) (v : Int) :
    (retireBucket h v).map Bucket.value = h.map Bucket.value := by
  cases hsb : searchBucket h v with
  | none => simp only [retireBucket, hsb]
  | some b => simp only [retireBucket, hsb, bumpBucket_vals]

theorem mem_insertBucket_vals (h : List Bucket) (v u : Int)
    (hu : u ∈ h.map Bucket.value) : u ∈ (insertBucket h v).map Bucket.value := by
  cases hsb : searchBucket h v with
  | none => simp only [insertBucket, hsb, List.map_cons]; exact List.mem_cons_of_mem _ hu
  | some b => simpa only [insertBucket, hsb, bumpBucket_vals] using hu

theorem self_mem_insertBucket_vals (h : List Bucket) (v : Int) :
    v ∈ (insertBucket h v).map Bucket.value := by
  cases hsb : searchBucket h v with
  | none => simp only [insertBucket, hsb, List.map_cons]; exact List.mem_cons_self _ _
  | some b =>
    have hv : v ∈ h.map Bucket.value := by
      rw [← searchBucket_isSome_iff, hsb]; rfl
    simpa only [insertBucket, hsb, bumpBucket_vals] using hv

theorem insertBucket_vals_subset (h : List Bucket) (v : Int) :
    ∀ u ∈ (insertBucket h v).map Bucket.value, u = v ∨ u ∈ h.map Bucket.value := by
  intro u hu
  cases hsb : searchBucket h v with
  | none =>
    simp only [insertBucket, hsb, List.map_cons] at hu
    rcases List.mem_cons.1 hu with h1 | h1
    · exact Or.inl h1
    · exact Or.inr h1
  | some b =>
    rw [insertBucket, hsb, bumpBucket_vals] at hu
    exact Or.inr hu

theorem insertBucket_nodup (h : List Bucket) (v : Int)
    (hn : (h.map Bucket.value).Nodup) : ((insertBucket h v).map Bucket.value).Nodup := by
  cases hsb : searchBucket h v with
  | none =>
    have hv : v ∉ h.map Bucket.value := by
      rw [← searchBucket_isSome_iff, hsb]; simp
    simp only [insertBucket, hsb, List.map_cons]
    exact List.nodup_cons.2 ⟨hv, hn⟩
  | some b => simpa only [insertBucket, hsb, bumpBucket_vals] using hn

theorem tiedCount_eq_zero (h : List Bucket) (w : Int)
    (hw : w ∉ h.map Bucket.value) : tiedCount h w = 0 := by
  induction h with
  | nil => rfl
  | cons b bs ih =>
    have h1 : ¬ b.value = w := by
      intro hx
      exact hw (by simp [← hx])
    have h2 : w ∉ bs.map Bucket.value := by
      intro hx
      exact hw (by simp [hx])
    simp only [tiedCount, if_neg h1, ih h2]
    omega

theorem tied_eq_tiedCount (h : List Bucket) (hn : (h.map Bucket.value).Nodup) :
    ∀ b ∈ h, b.tied = tiedCount h b.value := by
  induction h with
  | nil => intro b hb; simp at hb
  | cons c cs ih =>
    intro b hb
    have hn3 : (c.value :: cs.map Bucket.value).Nodup := by
      rw [List.map_cons] at hn
      exact hn
    have hn2 := List.nodup_cons.1 hn3
    rcases List.mem_cons.1 hb with h1 | h1
    · subst h1
      have hz : tiedCount cs b.value = 0 := tiedCount_eq_zero cs b.value hn2.1
      simp [tiedCount, hz]
    · have hbv : b.value ∈ cs.map Bucket.value := List.mem_map_of_mem _ h1
      have hne : ¬ c.value = b.value := by
        intro hx
        exact hn2.1 (hx ▸ hbv)
      rw [ih hn2.2 b h1]
      simp only [tiedCount, if_neg hne]
      omega

/-! ### Trace counting lemmas -/

theorem countVal_append (l1 l2 : List (Int × Int)) (w : Int) :
    countVal (l1 ++ l2) w = countVal l1 w + countVal l2 w := by
  induction l1 with
  | nil => simp [countVal]
  | cons p l ih =>
    simp only [List.cons_append, countVal, List.append_eq]
    rw [ih]
    omega

theorem countVal_nonneg (l : List (Int × Int)) (w : Int) : 0 ≤ countVal l w := by
  induction l with
  | nil => simp [countVal]
  | cons p l ih =>
    simp only [countVal]
    split_ifs <;> omega

theorem countVal_take_le (l : List (Int × Int)) (r : Nat) (w : Int) :
    countVal (l.take r) w ≤ countVal l w := by
  conv_rhs => rw [← List.take_append_drop r l]
  rw [countVal_append]
  have := countVal_nonneg (l.drop r) w
  omega

/-! ### The retention-manager invariant -/

theorem nodeAt_reverse (ms : List Sample) (i : Nat) (hi : i < ms.length) :
    nodeAt ms.reverse i = ms[i]? := by
  unfold nodeAt
  rw [List.length_reverse]
  rw [List.getElem?_reverse (by omega : ms.length - 1 - i < ms.length)]
  have he : ms.length - 1 - (ms.length - 1 - i) = i := by omega
  rw [he]

theorem histInv_insert (tr : List (Int × Int)) (t v : Int) (r : Nat)
    (h : List Bucket) (hh : histInv tr r h) :
    histInv (tr ++ [(t, v)]) r (insertBucket h v) := by
  obtain ⟨hcnt, hmem, hnod, hsub, hsum, hrle⟩ := hh
  refine ⟨?_, ?_, insertBucket_nodup h v hnod, ?_, ?_, ?_⟩
  · intro w
    rw [tiedCount_insertBucket, hcnt w, countVal_append,
      List.take_append_of_le_length hrle]
    simp only [countVal]
    split_ifs <;> omega
  · intro p hp
    rcases List.mem_append.1 hp with h1 | h1
    · exact mem_insertBucket_vals h v p.2 (hmem p h1)
    · have hpv : p = (t, v) := by simpa using h1
      rw [hpv]
      exact self_mem_insertBucket_vals h v
  · intro u hu
    rcases insertBucket_vals_subset h v u hu with h1 | h1
    · subst h1
      rw [List.map_append]
      exact List.mem_append.2 (Or.inr (by simp))
    · rw [List.map_append]
      exact List.mem_append.2 (Or.inl (hsub u h1))
  · rw [sumTied_insertBucket, hsum, List.length_append]
    simp only [List.length_singleton]
    push_cast
    omega
  · rw [List.length_append]
    simp only [List.length_singleton]
    omega

theorem histInv_retire_insert (tr : List (Int × Int)) (t v : Int) (r : Nat)
    (h : List Bucket) (hh : histInv tr r h) (p : Int × Int)
    (hp : tr[r]? = some p) :
    histInv (tr ++ [(t, v)]) (r + 1) (insertBucket (retireBucket h p.2) v) := by
  obtain ⟨hcnt, hmem, hnod, hsub, hsum, hrle⟩ := hh
  have hrn : r < tr.length := by
    by_contra hge
    rw [List.getElem?_eq_none_iff.2 (by omega)] at hp
    exact Option.noConfusion hp
  have hpmem : p ∈ tr := by
    obtain ⟨hlt, hget⟩ := List.getElem?_eq_some.1 hp
    exact hget ▸ List.getElem_mem hlt
  have hpv : p.2 ∈ h.map Bucket.value := hmem p hpmem
  have htake : (tr ++ [(t, v)]).take (r + 1) = tr.take r ++ [p] := by
    rw [List.take_append_of_le_length (by omega), List.take_succ, hp]
    rfl
  refine ⟨?_, ?_, ?_, ?_, ?_, ?_⟩
  · intro w
    rw [tiedCount_insertBucket, tiedCount_retireBucket h p.2 w hpv, hcnt w,
      countVal_append, htake, countVal_append]
    simp only [countVal]
    split_ifs <;> omega
  · intro q hq
    rcases List.mem_append.1 hq with h1 | h1
    · refine mem_insertBucket_vals _ v q.2 ?_
      rw [retireBucket_vals]
      exact hmem q h1
    · have hqv : q = (t, v) := by simpa using h1
      rw [hqv]
      exact self_mem_insertBucket_vals _ v
  · apply insertBucket_nodup
    rw [retireBucket_vals]
    exact hnod
  · intro u hu
    rcases insertBucket_vals_subset _ v u hu with h1 | h1
    · subst h1
      rw [List.map_append]
      exact List.mem_append.2 (Or.inr (by simp))
    · rw [retireBucket_vals] at h1
      rw [List.map_append]
      exact List.mem_append.2 (Or.inl (hsub u h1))
  · rw [sumTied_insertBucket, sumTied_retireBucket _ _ hpv, hsum, List.length_append]
    simp only [List.length_singleton]
    push_cast
    omega
  · rw [List.length_append]
    simp only [List.length_singleton]
    omega

theorem retireStep_char (tr : List (Int × Int)) (sv : List Sample)
    (hsv : sv = (mkSamples tr).reverse) (bd : Option Nat) (r : Nat)
    (hb : boundaryRel bd r tr.length) (t w : Int) (h : List Bucket)
    (res : Option Nat × List Bucket)
    (hret : retireStep sv t w bd h = some res) :
    ∃ r2 : Nat,
      boundaryRel res.1 r2 (tr.length + 1) ∧
      ((r2 = r ∧ res.2 = h) ∨
        (r2 = r + 1 ∧ ∃ p, tr[r]? = some p ∧ res.2 = retireBucket h p.2)) := by
  rcases hb with ⟨hbd, hrn⟩ | ⟨hbd, hrn⟩
  · subst hbd
    have hms : (mkSamples tr).length = tr.length := by
      rw [mkSamples, List.length_map]
    have hlen : sv.length = tr.length := by
      rw [hsv, List.length_reverse, hms]
    have hp : tr[r]? = some tr[r] := List.getElem?_eq_getElem hrn
    have hnode : nodeAt sv r = some { timestamp := tr[r].1, value := tr[r].2 } := by
      rw [hsv, nodeAt_reverse _ r (by omega)]
      rw [mkSamples, List.getElem?_map, hp]
      rfl
    simp only [retireStep, hnode] at hret
    by_cases hc : t - w > tr[r].1
    · rw [if_pos hc] at hret
      have hres := (Option.some.inj hret).symm
      refine ⟨r + 1, ?_, Or.inr ⟨rfl, tr[r], hp, by rw [hres]⟩⟩
      rw [hres]
      by_cases hr2 : r + 1 < sv.length
      · exact Or.inl ⟨by rw [if_pos hr2], by omega⟩
      · exact Or.inr ⟨by rw [if_neg hr2], by omega⟩
    · rw [if_neg hc] at hret
      have hres := (Option.some.inj hret).symm
      refine ⟨r, ?_, Or.inl ⟨rfl, by rw [hres]⟩⟩
      rw [hres]
      exact Or.inl ⟨rfl, by omega⟩
  · subst hbd
    simp [retireStep] at hret

theorem update_StateInv (tr : List (Int × Int)) (st st2 : SlabMK) (t v : Int)
    (hI : StateInv tr st) (hup : updateSlabMK st t v = some st2) :
    StateInv (tr ++ [(t, v)]) st2 := by
  obtain ⟨hsv, rM, rS, hbM, hbS, hT, hM, hS⟩ := hI
  cases hretM : retireStep st.sValues t MID_TERM st.lastMID st.tiedbucketsMID with
  | none =>
    simp only [updateSlabMK, hretM] at hup
    exact Option.noConfusion hup
  | some pM =>
    cases hretS : retireStep st.sValues t SHORT_TERM st.lastSHORT st.tiedbucketsSHORT with
    | none =>
      simp only [updateSlabMK, hretM, hretS] at hup
      exact Option.noConfusion hup
    | some pS =>
      simp only [updateSlabMK, hretM, hretS] at hup
      have hst2 := (Option.some.inj hup).symm
      obtain ⟨rM2, hbM2, hcaseM⟩ :=
        retireStep_char tr st.sValues hsv st.lastMID rM hbM t MID_TERM
          st.tiedbucketsMID pM hretM
      obtain ⟨rS2, hbS2, hcaseS⟩ :=
        retireStep_char tr st.sValues hsv st.lastSHORT rS hbS t SHORT_TERM
          st.tiedbucketsSHORT pS hretS
      have hlen : (tr ++ [(t, v)]).length = tr.length + 1 := by
        rw [List.length_append]
        rfl
      refine ⟨?_, rM2, rS2, ?_, ?_, ?_, ?_, ?_⟩
      · rw [hst2]
        show ({ timestamp := t, value := v } : Sample) :: st.sValues
          = (mkSamples (tr ++ [(t, v)])).reverse
        rw [hsv, mkSamples, mkSamples, List.map_append, List.reverse_append]
        rfl
      · rw [hst2, hlen]
        exact hbM2
      · rw [hst2, hlen]
        exact hbS2
      · rw [hst2]
        show histInv (tr ++ [(t, v)]) 0 (insertBucket st.tiedbucketsTotal v)
        exact histInv_insert tr t v 0 st.tiedbucketsTotal hT
      · rw [hst2]
        show histInv (tr ++ [(t, v)]) rM2 (insertBucket pM.2 v)
        rcases hcaseM with ⟨hr2, hh2⟩ | ⟨hr2, p, hp, hh2⟩
        · rw [hr2, hh2]
          exact histInv_insert tr t v rM st.tiedbucketsMID hM
        · rw [hr2, hh2]
          exact histInv_retire_insert tr t v rM st.tiedbucketsMID hM p hp
      · rw [hst2]
        show histInv (tr ++ [(t, v)]) rS2 (insertBucket pS.2 v)
        rcases hcaseS with ⟨hr2, hh2⟩ | ⟨hr2, p, hp, hh2⟩
        · rw [hr2, hh2]
          exact histInv_insert tr t v rS st.tiedbucketsSHORT hS
        · rw [hr2, hh2]
          exact histInv_retire_insert tr t v rS st.tiedbucketsSHORT hS p hp

theorem histInv_init (t v : Int) :
    histInv [(t, v)] 0 [{ value := v, tied := 1 }] := by
  refine ⟨?_, ?_, ?_, ?_, ?_, ?_⟩
  · intro w
    simp only [tiedCount, countVal, List.take]
    split_ifs <;> omega
  · intro p hp
    have hpv : p = (t, v) := by simpa using hp
    rw [hpv]
    simp
  · simp
  · intro u hu
    simp only [List.map_cons, List.map_nil] at hu
    rcases List.mem_cons.1 hu with h1 | h1
    · subst h1
      simp
    · simp at h1
  · rfl
  · simp

theorem initSlabMK_StateInv (t v : Int) : StateInv [(t, v)] (initSlabMK t v) := by
  refine ⟨rfl, 0, 0, Or.inl ⟨rfl, by simp⟩, Or.inl ⟨rfl, by simp⟩,
    histInv_init t v, histInv_init t v, histInv_init t v⟩

theorem runTrace1_StateInv (l : List (Int × Int)) :
    ∀ (tr : List (Int × Int)) (st st2 : SlabMK),
      StateInv tr st → runTrace1 st l = some st2 → StateInv (tr ++ l) st2 := by
  induction l with
  | nil =>
    intro tr st st2 hI h
    have hst : st = st2 := Option.some.inj h
    subst hst
    simpa using hI
  | cons p l ih =>
    intro tr st st2 hI h
    obtain ⟨t, v⟩ := p
    cases hup : updateSlabMK st t v with
    | none =>
      simp only [runTrace1, hup] at h
      exact Option.noConfusion h
    | some stm =>
      simp only [runTrace1, hup] at h
      have hIm := update_StateInv tr st stm t v hI hup
      have := ih (tr ++ [(t, v)]) stm st2 hIm h
      simpa [List.append_assoc] using this

theorem runTrace_StateInv (tr : List (Int × Int)) (st : SlabMK)
    (h : runTrace tr = some st) : StateInv tr st := by
  cases tr with
  | nil => simp [runTrace] at h
  | cons p rest =>
    obtain ⟨t, v⟩ := p
    have h2 : runTrace1 (initSlabMK t v) rest = some st := h
    have := runTrace1_StateInv rest [(t, v)] (initSlabMK t v) st
      (initSlabMK_StateInv t v) h2
    simpa using this

theorem histInv_tied_nonneg (tr : List (Int × Int)) (r : Nat) (h : List Bucket)
    (hh : histInv tr r h) : ∀ b ∈ h, 0 ≤ b.tied := by
  intro b hb
  obtain ⟨hcnt, -, hnod, -, -, -⟩ := hh
  rw [tied_eq_tiedCount h hnod b hb, hcnt b.value]
  have := countVal_take_le tr r b.value
  omega

/-- C10: in every state reachable by any observation trace, every tie bucket
of every horizon's histogram has a nonnegative tie count: each series node
increments its value's bucket once at insertion and is retired at most once
per bounded horizon, so no bucket is driven below zero. -/
theorem mk_C10 (tr : List (Int × Int)) (st : SlabMK)
    (h : runTrace tr = some st) :
    (∀ b ∈ st.tiedbucketsTotal, 0 ≤ b.tied) ∧
    (∀ b ∈ st.tiedbucketsMID, 0 ≤ b.tied) ∧
    (∀ b ∈ st.tiedbucketsSHORT, 0 ≤ b.tied) := by
  obtain ⟨-, rM, rS, -, -, hT, hM, hS⟩ := runTrace_StateInv tr st h
  exact ⟨histInv_tied_nonneg _ _ _ hT, histInv_tied_nonneg _ _ _ hM,
    histInv_tied_nonneg _ _ _ hS⟩

/-- Closed witness for `mk_C10`, at a trace whose short-term histogram
contains a bucket already decayed to zero. -/
theorem mk_C10_witness :
    (∀ b ∈ gapState.tiedbucketsTotal, 0 ≤ b.tied) ∧
    (∀ b ∈ gapState.tiedbucketsMID, 0 ≤ b.tied) ∧
    (∀ b ∈ gapState.tiedbucketsSHORT, 0 ≤ b.tied) :=
  mk_C10 gapTrace gapState rfl

/-! ### Counterexamples: the single-step boundary retirement -/

/-- C5 counterexample: the code performs at most one retirement per bounded
horizon per cycle (an `if`, not a `while`).  After the trace
`(0,10), (30,20), (1200,30)` the short-term boundary still references the
sample of timestamp 30, which has aged out of the 900s window at
`t = 1200`. -/
theorem mk_C5_cex : ¬ C5Statement := by
  intro h
  have h2 := (h [(0, 10), (30, 20)] 1200 30 gapState (by decide) rfl).2
  exact h2 1 { timestamp := 30, value := 20 } rfl rfl (by decide)

/-- C6 counterexample: after the same gap trace the short-term histogram's
total tie count is 2, while only one sample (the one of timestamp 1200) is
inside the short-term window. -/
theorem mk_C6_cex : ¬ C6Statement := by
  intro h
  exact absurd ((h [(0, 10), (30, 20)] 1200 30 gapState rfl).2.2) (by decide)

/-- C7 counterexample: after the same gap trace the short-term boundary
references a node that is not in-window at all, so it is not the oldest
in-window node. -/
theorem mk_C7_cex : ¬ C7Statement := by
  intro h
  obtain ⟨⟨i, nd, hb, hn, hin, -⟩, -⟩ := h [(0, 10), (30, 20)] 1200 30 gapState rfl
  have hi : (1 : Nat) = i := Option.some.inj hb
  subst hi
  have hnd : ({ timestamp := 30, value := 20 } : Sample) = nd := Option.some.inj hn
  rw [← hnd] at hin
  exact absurd hin (by decide)

/-! ### Retirement counting for constant-interval traces -/

theorem retCount_charac (d w : Int) (hd : 0 < d) (hw : 0 ≤ w) :
    ∀ (j i : Nat), i < retCount d w j ↔ (i : Int) * d < (j : Int) * d - w := by
  intro j
  induction j with
  | zero =>
    intro i
    constructor
    · intro h
      rw [show retCount d w 0 = 0 from rfl] at h
      exact absurd h (by omega)
    · intro h
      exfalso
      have h1 : (0 : Int) ≤ (i : Int) * d :=
        mul_nonneg (Int.natCast_nonneg i) (le_of_lt hd)
      have h2 : ((0 : Nat) : Int) * d - w = -w := by
        push_cast
        ring
      rw [h2] at h
      linarith
  | succ j ih =>
    intro i
    by_cases hc : (retCount d w j : Int) * d < ((j : Int) + 1) * d - w
    · have hstep : retCount d w (j + 1) = retCount d w j + 1 := by
        simp only [retCount, if_pos hc]
      rw [hstep]
      constructor
      · intro hi
        rcases Nat.lt_succ_iff_lt_or_eq.1 hi with h1 | h1
        · have h2 := (ih i).1 h1
          push_cast
          linarith
        · subst h1
          push_cast
          exact hc
      · intro hi
        by_contra hge
        push_neg at hge
        have h1 : ((retCount d w j : Int) + 1) * d ≤ (i : Int) * d := by
          have h0 : ((retCount d w j : Int) + 1) ≤ (i : Int) := by exact_mod_cast hge
          exact mul_le_mul_of_nonneg_right h0 (le_of_lt hd)
        have h2 : ¬ ((retCount d w j : Int) * d < (j : Int) * d - w) := by
          intro hx
          exact absurd ((ih _).2 hx) (lt_irrefl _)
        push_neg at h2
        have h3 : ((retCount d w j : Int) + 1) * d = (retCount d w j : Int) * d + d := by
          ring
        push_cast at hi
        linarith
    · have hstep : retCount d w (j + 1) = retCount d w j := by
        simp only [retCount, if_neg hc, Nat.add_zero]
      rw [hstep]
      constructor
      · intro hi
        have h2 := (ih i).1 hi
        push_cast
        linarith
      · intro hi
        by_contra hge
        push_neg at hge
        have h1 : (retCount d w j : Int) * d ≤ (i : Int) * d := by
          have h0 : ((retCount d w j : Int)) ≤ (i : Int) := by exact_mod_cast hge
          exact mul_le_mul_of_nonneg_right h0 (le_of_lt hd)
        push_neg at hc
        push_cast at hi
        linarith

theorem retCount_le (d w : Int) (hd : 0 < d) (hw : 0 ≤ w) (j : Nat) :
    retCount d w j ≤ j := by
  by_contra hgt
  push_neg at hgt
  have h1 := (retCount_charac d w hd hw j j).1 hgt
  linarith

theorem retCount_lt (d w : Int) (hd : 0 < d) (hdw : d ≤ w) (j : Nat)
    (hj : 1 ≤ j) : retCount d w j < j := by
  have hw : 0 ≤ w := le_trans (le_of_lt hd) hdw
  have hle := retCount_le d w hd hw j
  rcases lt_or_eq_of_le hle with h | h
  · exact h
  · exfalso
    have h2 : j - 1 < retCount d w j := by omega
    have h3 := (retCount_charac d w hd hw j (j - 1)).1 h2
    have hcast : ((j - 1 : Nat) : Int) = (j : Int) - 1 := by omega
    rw [hcast] at h3
    have h4 : ((j : Int) - 1) * d = (j : Int) * d - d := by ring
    linarith

/-! ### Structure of constant-interval traces -/

theorem length_ctraceFrom (d : Int) :
    ∀ (i : Nat) (vs : List Int), (ctraceFrom d i vs).length = vs.length := by
  intro i vs
  induction vs generalizing i with
  | nil => rfl
  | cons x xs ih => simp [ctraceFrom, ih]

theorem ctraceFrom_append (d : Int) (v : Int) :
    ∀ (vs : List Int) (i : Nat),
      ctraceFrom d i (vs ++ [v]) =
        ctraceFrom d i vs ++ [(((i + vs.length : Nat) : Int) * d, v)] := by
  intro vs
  induction vs with
  | nil =>
    intro i
    simp [ctraceFrom]
  | cons x xs ih =>
    intro i
    have hidx : (i + 1) + xs.length = i + (x :: xs).length := by
      simp [List.length_cons]
      omega
    simp only [List.cons_append, ctraceFrom, List.append_eq, ih (i + 1), hidx]

theorem getElem?_ctraceFrom (d : Int) :
    ∀ (vs : List Int) (i n : Nat),
      (ctraceFrom d i vs)[n]? =
        (vs[n]?).map fun v => (((i + n : Nat) : Int) * d, v) := by
  intro vs
  induction vs with
  | nil =>
    intro i n
    simp [ctraceFrom]
  | cons x xs ih =>
    intro i n
    cases n with
    | zero => simp [ctraceFrom]
    | succ n =>
      have hidx : (i + 1) + n = i + (n + 1) := by omega
      simp only [ctraceFrom, List.getElem?_cons_succ, ih (i + 1) n, hidx]

theorem ctraceFrom_map_snd (d : Int) :
    ∀ (i : Nat) (vs : List Int), (ctraceFrom d i vs).map Prod.snd = vs := by
  intro i vs
  induction vs generalizing i with
  | nil => rfl
  | cons x xs ih => simp [ctraceFrom, ih]

theorem countVal_ctraceFrom (d w : Int) :
    ∀ (i : Nat) (vs : List Int), countVal (ctraceFrom d i vs) w = countIn vs w := by
  intro i vs
  induction vs generalizing i with
  | nil => rfl
  | cons x xs ih => simp [ctraceFrom, countVal, countIn, ih]

theorem mkSamples_ctraceFrom_value (d : Int) :
    ∀ (i : Nat) (vs : List Int),
      (mkSamples (ctraceFrom d i vs)).map Sample.value = vs := by
  intro i vs
  induction vs generalizing i with
  | nil => rfl
  | cons x xs ih =>
    have h2 := ih (i + 1)
    simp only [mkSamples, List.map_map] at h2
    simp [ctraceFrom, mkSamples, List.map_map, h2]

theorem runTrace1_append (l2 : List (Int × Int)) :
    ∀ (l1 : List (Int × Int)) (st : SlabMK),
      runTrace1 st (l1 ++ l2) =
        (runTrace1 st l1).bind fun s => runTrace1 s l2 := by
  intro l1
  induction l1 with
  | nil =>
    intro st
    rfl
  | cons p l ih =>
    intro st
    obtain ⟨t, v⟩ := p
    cases hup : updateSlabMK st t v with
    | none => simp [runTrace1, hup]
    | some s2 => simp [runTrace1, hup, ih s2]

theorem runTrace_append_ne (l1 l2 : List (Int × Int)) (hne : l1 ≠ []) :
    runTrace (l1 ++ l2) = (runTrace l1).bind fun s => runTrace1 s l2 := by
  cases l1 with
  | nil => exact absurd rfl hne
  | cons p l =>
    obtain ⟨t, v⟩ := p
    simp only [List.cons_append, runTrace]
    exact runTrace1_append l2 l (initSlabMK t v)

/-! ### Boundary evolution over constant-interval traces -/

theorem nodeAt_ctrace (d v0 : Int) (vs : List Int) (sv : List Sample)
    (hsv : sv = (mkSamples (ctrace d (v0 :: vs))).reverse) (i : Nat)
    (hi : i < vs.length + 1) :
    ∃ y : Int, nodeAt sv i = some { timestamp := (i : Int) * d, value := y } := by
  have hms : (mkSamples (ctrace d (v0 :: vs))).length = vs.length + 1 := by
    rw [mkSamples, List.length_map, ctrace, length_ctraceFrom]
    rfl
  have hi2 : i < (v0 :: vs).length := by
    rw [List.length_cons]
    omega
  refine ⟨(v0 :: vs).get ⟨i, hi2⟩, ?_⟩
  have hy : (v0 :: vs)[i]? = some ((v0 :: vs).get ⟨i, hi2⟩) := by
    rw [List.getElem?_eq_getElem hi2, List.get_eq_getElem]
  rw [hsv, nodeAt_reverse _ i (by omega), mkSamples, List.getElem?_map, ctrace,
    getElem?_ctraceFrom, hy]
  simp

theorem boundaryRel_pin (b : Option Nat) (r n m j : Nat)
    (hb : boundaryRel b r n) (hshape : b = bdShape m j) (hn : n = j + 1)
    (hmj : m ≤ j) : r = m := by
  rcases hb with ⟨h1, h2⟩ | ⟨h1, h2⟩
  · rw [h1] at hshape
    by_cases hcond : m < j ∨ j = 0
    · unfold bdShape at hshape
      rw [if_pos hcond] at hshape
      exact Option.some.inj hshape
    · unfold bdShape at hshape
      rw [if_neg hcond] at hshape
      exact Option.noConfusion hshape
  · rw [h1] at hshape
    by_cases hcond : m < j ∨ j = 0
    · unfold bdShape at hshape
      rw [if_pos hcond] at hshape
      exact Option.noConfusion hshape
    · push_neg at hcond
      omega

theorem retireStep_ctrace (d W v0 : Int) (xs : List Int)
    (sv : List Sample) (hsv : sv = (mkSamples (ctrace d (v0 :: xs))).reverse)
    (hist : List Bucket) (m : Nat) (hm : m ≤ xs.length) :
    ∃ hist2 : List Bucket,
      retireStep sv (((xs.length + 1 : Nat) : Int) * d) W (some m) hist =
        some (bdShape
          (m + (if (m : Int) * d < ((xs.length : Int) + 1) * d - W then 1 else 0))
          (xs.length + 1), hist2) := by
  have hlen : sv.length = xs.length + 1 := by
    rw [hsv, List.length_reverse, mkSamples, List.length_map, ctrace,
      length_ctraceFrom]
    rfl
  obtain ⟨y, hnode⟩ := nodeAt_ctrace d v0 xs sv hsv m (by omega)
  by_cases hc : (m : Int) * d < ((xs.length : Int) + 1) * d - W
  · refine ⟨retireBucket hist y, ?_⟩
    have hcond : ((xs.length + 1 : Nat) : Int) * d - W >
        ({ timestamp := (m : Int) * d, value := y } : Sample).timestamp := by
      show (m : Int) * d < ((xs.length + 1 : Nat) : Int) * d - W
      push_cast
      linarith
    simp only [retireStep, hnode, if_pos hcond, if_pos hc]
    by_cases hlt : m + 1 < xs.length + 1
    · rw [hlen]
      have hsh : bdShape (m + 1) (xs.length + 1) = some (m + 1) := by
        unfold bdShape
        rw [if_pos (Or.inl hlt)]
      rw [if_pos hlt, hsh]
    · rw [hlen]
      have hsh : bdShape (m + 1) (xs.length + 1) = none := by
        unfold bdShape
        rw [if_neg (by omega)]
      rw [if_neg hlt, hsh]
  · refine ⟨hist, ?_⟩
    have hcond : ¬ (((xs.length + 1 : Nat) : Int) * d - W >
        ({ timestamp := (m : Int) * d, value := y } : Sample).timestamp) := by
      show ¬ ((m : Int) * d < ((xs.length + 1 : Nat) : Int) * d - W)
      push_cast
      push_cast at hc
      linarith
    simp only [retireStep, hnode, if_neg hcond, if_neg hc]
    have hsh : bdShape (m + 0) (xs.length + 1) = some m := by
      unfold bdShape
      rw [Nat.add_zero, if_pos (Or.inl (by omega))]
    rw [hsh]

theorem boundaries_ctrace (d : Int) (hd : 0 < d) :
    ∀ (vs : List Int) (v0 : Int) (st : SlabMK),
      runTrace (ctrace d (v0 :: vs)) = some st →
      st.lastMID = bdShape (retCount d MID_TERM vs.length) vs.length ∧
      st.lastSHORT = bdShape (retCount d SHORT_TERM vs.length) vs.length := by
  intro vs
  induction vs using List.reverseRecOn with
  | nil =>
    intro v0 st h
    have hst : initSlabMK (((0 : Nat) : Int) * d) v0 = st := Option.some.inj h
    rw [← hst]
    exact ⟨rfl, rfl⟩
  | append_singleton xs x ih =>
    intro v0 st h
    have htr : ctrace d (v0 :: (xs ++ [x])) =
        ctrace d (v0 :: xs) ++ [(((xs.length + 1 : Nat) : Int) * d, x)] := by
      show ctraceFrom d 0 ((v0 :: xs) ++ [x]) = _
      rw [ctraceFrom_append]
      have hidx : (0 + (v0 :: xs).length : Nat) = xs.length + 1 := by
        simp [List.length_cons]
      rw [hidx]
      rfl
    rw [htr, runTrace_append_ne _ _ (by simp [ctrace, ctraceFrom])] at h
    cases hprev : runTrace (ctrace d (v0 :: xs)) with
    | none =>
      rw [hprev] at h
      exact Option.noConfusion h
    | some stp =>
      rw [hprev] at h
      simp only [Option.some_bind] at h
      obtain ⟨hbM, hbS⟩ := ih v0 stp hprev
      obtain ⟨hsv, rM, rS, hbM2, hbS2, -, -, -⟩ := runTrace_StateInv _ _ hprev
      have hmM := retCount_le d MID_TERM hd (by rw [MID_TERM]; omega) xs.length
      have hmS := retCount_le d SHORT_TERM hd (by rw [SHORT_TERM]; omega) xs.length
      cases hup : updateSlabMK stp (((xs.length + 1 : Nat) : Int) * d) x with
      | none =>
        simp only [runTrace1, hup] at h
        exact Option.noConfusion h
      | some st2 =>
        simp only [runTrace1, hup] at h
        have hst : st2 = st := Option.some.inj h
        subst hst
        by_cases hcM : retCount d MID_TERM xs.length < xs.length ∨ xs.length = 0
        · have hbMs : stp.lastMID = some (retCount d MID_TERM xs.length) := by
            rw [hbM]
            unfold bdShape
            rw [if_pos hcM]
          by_cases hcS : retCount d SHORT_TERM xs.length < xs.length ∨ xs.length = 0
          · have hbSs : stp.lastSHORT = some (retCount d SHORT_TERM xs.length) := by
              rw [hbS]
              unfold bdShape
              rw [if_pos hcS]
            obtain ⟨histM2, hretM⟩ := retireStep_ctrace d MID_TERM v0 xs
              stp.sValues hsv stp.tiedbucketsMID (retCount d MID_TERM xs.length) hmM
            obtain ⟨histS2, hretS⟩ := retireStep_ctrace d SHORT_TERM v0 xs
              stp.sValues hsv stp.tiedbucketsSHORT (retCount d SHORT_TERM xs.length) hmS
            rw [← hbMs] at hretM
            rw [← hbSs] at hretS
            simp only [updateSlabMK, hretM, hretS] at hup
            have hst2 := (Option.some.inj hup).symm
            rw [hst2]
            constructor
            · show bdShape
                (retCount d MID_TERM xs.length +
                  (if (retCount d MID_TERM xs.length : Int) * d <
                    ((xs.length : Int) + 1) * d - MID_TERM then 1 else 0))
                (xs.length + 1) = _
              rw [show (xs ++ [x]).length = xs.length + 1 by simp]
              rfl
            · show bdShape
                (retCount d SHORT_TERM xs.length +
                  (if (retCount d SHORT_TERM xs.length : Int) * d <
                    ((xs.length : Int) + 1) * d - SHORT_TERM then 1 else 0))
                (xs.length + 1) = _
              rw [show (xs ++ [x]).length = xs.length + 1 by simp]
              rfl
          · exfalso
            have hbSn : stp.lastSHORT = none := by
              rw [hbS]
              unfold bdShape
              rw [if_neg hcS]
            obtain ⟨histM2, hretM⟩ := retireStep_ctrace d MID_TERM v0 xs
              stp.sValues hsv stp.tiedbucketsMID (retCount d MID_TERM xs.length) hmM
            rw [← hbMs] at hretM
            simp only [updateSlabMK, hretM] at hup
            simp only [hbSn, retireStep] at hup
            exact Option.noConfusion hup
        · exfalso
          have hbMn : stp.lastMID = none := by
            rw [hbM]
            unfold bdShape
            rw [if_neg hcM]
          simp only [updateSlabMK, hbMn, retireStep] at hup
          exact Option.noConfusion hup

/-! ### In-window counting over constant-interval traces -/

theorem counterWin_append (t w : Int) (l1 l2 : List Sample) :
    counterWin t w (l1 ++ l2) = counterWin t w l1 + counterWin t w l2 := by
  induction l1 with
  | nil => simp [counterWin]
  | cons s l ih =>
    simp only [List.cons_append, counterWin, List.append_eq]
    rw [ih]
    omega

theorem counterWin_reverse (t w : Int) (l : List Sample) :
    counterWin t w l.reverse = counterWin t w l := by
  induction l with
  | nil => rfl
  | cons s l ih =>
    rw [List.reverse_cons, counterWin_append, ih]
    simp only [counterWin]
    omega

theorem counterWin_ctraceFrom (t w d : Int) (m : Nat)
    (hm : ∀ i : Nat, i < m ↔ (i : Int) * d < t - w) :
    ∀ (vs : List Int) (i0 : Nat), m ≤ i0 + vs.length →
      counterWin t w (mkSamples (ctraceFrom d i0 vs)) =
        (vs.length : Int) - ((m - i0 : Nat) : Int) := by
  intro vs
  induction vs with
  | nil =>
    intro i0 h
    simp only [List.length_nil, Nat.add_zero] at h
    have hm0 : m - i0 = 0 := by omega
    simp [ctraceFrom, mkSamples, counterWin, hm0]
  | cons v vs ih =>
    intro i0 h
    simp only [List.length_cons] at h ⊢
    simp only [ctraceFrom, mkSamples, List.map_cons, counterWin]
    by_cases hcase : i0 < m
    · have hout : ¬ (t - w ≤ (i0 : Int) * d) := by
        have h2 := (hm i0).1 hcase
        linarith
      have hbw : ¬ (inWindow t w { timestamp := (i0 : Int) * d, value := v } = true) := by
        simp [inWindow, hout]
      have h3 := ih (i0 + 1) (by omega)
      simp only [mkSamples] at h3
      rw [if_neg hbw, h3]
      push_cast
      omega
    · have hin : t - w ≤ (i0 : Int) * d := by
        by_contra hx
        push_neg at hx
        exact hcase ((hm i0).2 hx)
      have hbw : inWindow t w { timestamp := (i0 : Int) * d, value := v } = true := by
        simp [inWindow, hin]
      have h3 := ih (i0 + 1) (by omega)
      simp only [mkSamples] at h3
      rw [if_pos hbw, h3]
      push_cast
      omega

/-- C6 amended: for an entity reported on every cycle at a constant sampling
interval `d > 0` (timestamps `0, d, 2d, ...`), at the end of every completed
cycle the sum of `tied` over each horizon's histogram equals that horizon's
in-window sample count (the whole series for the total horizon). -/
theorem mk_C6 (d v0 : Int) (vs : List Int) (st : SlabMK) (hd : 0 < d)
    (h : runTrace (ctrace d (v0 :: vs)) = some st) :
    sumTied st.tiedbucketsTotal = (st.sValues.length : Int) ∧
    sumTied st.tiedbucketsMID =
      counterWin ((vs.length : Int) * d) MID_TERM st.sValues ∧
    sumTied st.tiedbucketsSHORT =
      counterWin ((vs.length : Int) * d) SHORT_TERM st.sValues := by
  obtain ⟨hsv, rM, rS, hbM2, hbS2, hT, hM, hS⟩ := runTrace_StateInv _ _ h
  obtain ⟨hbM, hbS⟩ := boundaries_ctrace d hd vs v0 st h
  have hwM : (0 : Int) ≤ MID_TERM := by rw [MID_TERM]; omega
  have hwS : (0 : Int) ≤ SHORT_TERM := by rw [SHORT_TERM]; omega
  have hmM := retCount_le d MID_TERM hd hwM vs.length
  have hmS := retCount_le d SHORT_TERM hd hwS vs.length
  have hn : (ctrace d (v0 :: vs)).length = vs.length + 1 := by
    rw [ctrace, length_ctraceFrom]
    rfl
  have hsvlen : st.sValues.length = vs.length + 1 := by
    rw [hsv, List.length_reverse, mkSamples, List.length_map, hn]
  have hrM : rM = retCount d MID_TERM vs.length :=
    boundaryRel_pin st.lastMID rM (ctrace d (v0 :: vs)).length
      (retCount d MID_TERM vs.length) vs.length hbM2 hbM hn hmM
  have hrS : rS = retCount d SHORT_TERM vs.length :=
    boundaryRel_pin st.lastSHORT rS (ctrace d (v0 :: vs)).length
      (retCount d SHORT_TERM vs.length) vs.length hbS2 hbS hn hmS
  refine ⟨?_, ?_, ?_⟩
  · rw [hT.2.2.2.2.1, hn, hsvlen]
    push_cast
    ring
  · rw [hM.2.2.2.2.1, hn, hrM]
    rw [hsv, counterWin_reverse, ctrace]
    rw [counterWin_ctraceFrom ((vs.length : Int) * d) MID_TERM d
      (retCount d MID_TERM vs.length)
      (fun i => retCount_charac d MID_TERM hd hwM vs.length i) (v0 :: vs) 0
      (by simp only [List.length_cons]; omega)]
    simp only [List.length_cons, Nat.sub_zero]
  · rw [hS.2.2.2.2.1, hn, hrS]
    rw [hsv, counterWin_reverse, ctrace]
    rw [counterWin_ctraceFrom ((vs.length : Int) * d) SHORT_TERM d
      (retCount d SHORT_TERM vs.length)
      (fun i => retCount_charac d SHORT_TERM hd hwS vs.length i) (v0 :: vs) 0
      (by simp only [List.length_cons]; omega)]
    simp only [List.length_cons, Nat.sub_zero]

/-- Closed witness for `mk_C6`. -/
theorem mk_C6_witness :
    (0 : Int) < 30 ∧
    (sumTied (((runTrace (ctrace 30 [5, 7])).getD dflt).tiedbucketsTotal) =
      ((((runTrace (ctrace 30 [5, 7])).getD dflt).sValues.length : Nat) : Int) ∧
     sumTied (((runTrace (ctrace 30 [5, 7])).getD dflt).tiedbucketsMID) =
      counterWin (((1 : Nat) : Int) * 30) MID_TERM
        ((runTrace (ctrace 30 [5, 7])).getD dflt).sValues ∧
     sumTied (((runTrace (ctrace 30 [5, 7])).getD dflt).tiedbucketsSHORT) =
      counterWin (((1 : Nat) : Int) * 30) SHORT_TERM
        ((runTrace (ctrace 30 [5, 7])).getD dflt).sValues) :=
  ⟨by norm_num,
    mk_C6 30 5 [7] ((runTrace (ctrace 30 [5, 7])).getD dflt) (by norm_num) rfl⟩

/-! ### The amended boundary invariant (C7) -/

theorem C7Amended_horizon (d W v0 : Int) (vs : List Int) (st : SlabMK)
    (hd : 0 < d) (hdW : d ≤ W)
    (hsv : st.sValues = (mkSamples (ctrace d (v0 :: vs))).reverse)
    (bd : Option Nat) (hist : List Bucket) (r : Nat)
    (hbd : bd = bdShape (retCount d W vs.length) vs.length)
    (hbrel : boundaryRel bd r (ctrace d (v0 :: vs)).length)
    (hhist : histInv (ctrace d (v0 :: vs)) r hist) :
    C7Amended d W v0 vs bd hist st.sValues := by
  have hw0 : (0 : Int) ≤ W := le_trans (le_of_lt hd) hdW
  have hm := retCount_le d W hd hw0 vs.length
  have hcond : retCount d W vs.length < vs.length ∨ vs.length = 0 := by
    rcases Nat.eq_zero_or_pos vs.length with h0 | h0
    · exact Or.inr h0
    · exact Or.inl (retCount_lt d W hd hdW vs.length h0)
  have hbds : bd = some (retCount d W vs.length) := by
    rw [hbd]
    unfold bdShape
    rw [if_pos hcond]
  have hn : (ctrace d (v0 :: vs)).length = vs.length + 1 := by
    rw [ctrace, length_ctraceFrom]
    rfl
  have hr : r = retCount d W vs.length :=
    boundaryRel_pin bd r _ (retCount d W vs.length) vs.length hbrel hbd hn hm
  have hcharac := retCount_charac d W hd hw0 vs.length
  have hlen : st.sValues.length = vs.length + 1 := by
    rw [hsv, List.length_reverse, mkSamples, List.length_map, hn]
  refine ⟨hbds, ?_, ?_, ?_⟩
  · obtain ⟨y, hy⟩ := nodeAt_ctrace d v0 vs st.sValues hsv
      (retCount d W vs.length) (by omega)
    refine ⟨_, hy, ?_⟩
    show (vs.length : Int) * d - W ≤ ((retCount d W vs.length : Nat) : Int) * d
    by_contra hx
    push_neg at hx
    exact absurd ((hcharac (retCount d W vs.length)).2 hx) (lt_irrefl _)
  · intro i nd hi hnd
    obtain ⟨y, hy⟩ := nodeAt_ctrace d v0 vs st.sValues hsv i (by omega)
    rw [hy] at hnd
    have hnd2 := Option.some.inj hnd
    subst hnd2
    constructor
    · intro him
      show (vs.length : Int) * d - W ≤ (i : Int) * d
      by_contra hx
      push_neg at hx
      exact absurd ((hcharac i).2 hx) (by omega)
    · intro him
      show (i : Int) * d < (vs.length : Int) * d - W
      exact (hcharac i).1 him
  · intro u
    rw [← hr]
    exact hhist.1 u

/-- C7 amended: for an entity reported on every cycle at a constant interval
`0 < d ≤ 900` (timestamps `0, d, 2d, ...`), at the end of every completed
cycle each bounded-horizon boundary references an existing node that is the
oldest one still inside `now - window`; every newer node is in-window, every
older node has aged out, and the horizon's histogram equals the insertions
minus the decrements of exactly those older (retired) nodes. -/
theorem mk_C7 (d v0 : Int) (vs : List Int) (st : SlabMK) (hd : 0 < d)
    (hdS : d ≤ SHORT_TERM)
    (h : runTrace (ctrace d (v0 :: vs)) = some st) :
    C7Amended d SHORT_TERM v0 vs st.lastSHORT st.tiedbucketsSHORT st.sValues ∧
    C7Amended d MID_TERM v0 vs st.lastMID st.tiedbucketsMID st.sValues := by
  obtain ⟨hsv, rM, rS, hbM2, hbS2, hT, hM, hS⟩ := runTrace_StateInv _ _ h
  obtain ⟨hbM, hbS⟩ := boundaries_ctrace d hd vs v0 st h
  have hdM : d ≤ MID_TERM := by
    rw [SHORT_TERM] at hdS
    rw [MID_TERM]
    omega
  exact ⟨C7Amended_horizon d SHORT_TERM v0 vs st hd hdS hsv st.lastSHORT
      st.tiedbucketsSHORT rS hbS hbS2 hS,
    C7Amended_horizon d MID_TERM v0 vs st hd hdM hsv st.lastMID
      st.tiedbucketsMID rM hbM hbM2 hM⟩

/-- Closed witness for `mk_C7`. -/
theorem mk_C7_witness :
    C7Amended 30 SHORT_TERM 5 [7]
      ((runTrace (ctrace 30 [5, 7])).getD dflt).lastSHORT
      ((runTrace (ctrace 30 [5, 7])).getD dflt).tiedbucketsSHORT
      ((runTrace (ctrace 30 [5, 7])).getD dflt).sValues ∧
    C7Amended 30 MID_TERM 5 [7]
      ((runTrace (ctrace 30 [5, 7])).getD dflt).lastMID
      ((runTrace (ctrace 30 [5, 7])).getD dflt).tiedbucketsMID
      ((runTrace (ctrace 30 [5, 7])).getD dflt).sValues :=
  mk_C7 30 5 [7] ((runTrace (ctrace 30 [5, 7])).getD dflt) (by norm_num)
    (by rw [SHORT_TERM]; norm_num) rfl

/-! ### The single-step boundary retirement (C5) -/

theorem update_short_retire (st st2 : SlabMK) (t v : Int) (i : Nat) (nd : Sample)
    (hup : updateSlabMK st t v = some st2)
    (hb : st.lastSHORT = some i) (hnd : nodeAt st.sValues i = some nd)
    (hold : nd.timestamp < t - SHORT_TERM)
    (hmem : nd.value ∈ st.tiedbucketsSHORT.map Bucket.value) :
    tiedCount st2.tiedbucketsSHORT nd.value =
      tiedCount st.tiedbucketsSHORT nd.value - 1 +
        (if nd.value = v then 1 else 0) ∧
    nd.value ∈ st2.tiedbucketsSHORT.map Bucket.value ∧
    st2.lastSHORT = (if i + 1 < st.sValues.length then some (i + 1) else none) := by
  cases hretM : retireStep st.sValues t MID_TERM st.lastMID st.tiedbucketsMID with
  | none =>
    simp only [updateSlabMK, hretM] at hup
    exact Option.noConfusion hup
  | some pM =>
    have hretS : retireStep st.sValues t SHORT_TERM st.lastSHORT st.tiedbucketsSHORT
        = some ((if i + 1 < st.sValues.length then some (i + 1) else none),
            retireBucket st.tiedbucketsSHORT nd.value) := by
      rw [hb]
      simp only [retireStep, hnd]
      rw [if_pos (by omega : t - SHORT_TERM > nd.timestamp)]
    simp only [updateSlabMK, hretM, hretS] at hup
    have hst2 := (Option.some.inj hup).symm
    rw [hst2]
    refine ⟨?_, ?_, rfl⟩
    · show tiedCount (insertBucket (retireBucket st.tiedbucketsSHORT nd.value) v)
        nd.value = _
      rw [tiedCount_insertBucket, tiedCount_retireBucket _ _ _ hmem]
      split_ifs <;> omega
    · show nd.value ∈
        (insertBucket (retireBucket st.tiedbucketsSHORT nd.value) v).map Bucket.value
      apply mem_insertBucket_vals
      rw [retireBucket_vals]
      exact hmem

theorem update_mid_retire (st st2 : SlabMK) (t v : Int) (i : Nat) (nd : Sample)
    (hup : updateSlabMK st t v = some st2)
    (hb : st.lastMID = some i) (hnd : nodeAt st.sValues i = some nd)
    (hold : nd.timestamp < t - MID_TERM)
    (hmem : nd.value ∈ st.tiedbucketsMID.map Bucket.value) :
    tiedCount st2.tiedbucketsMID nd.value =
      tiedCount st.tiedbucketsMID nd.value - 1 +
        (if nd.value = v then 1 else 0) ∧
    nd.value ∈ st2.tiedbucketsMID.map Bucket.value ∧
    st2.lastMID = (if i + 1 < st.sValues.length then some (i + 1) else none) := by
  have hretM : retireStep st.sValues t MID_TERM st.lastMID st.tiedbucketsMID
      = some ((if i + 1 < st.sValues.length then some (i + 1) else none),
          retireBucket st.tiedbucketsMID nd.value) := by
    rw [hb]
    simp only [retireStep, hnd]
    rw [if_pos (by omega : t - MID_TERM > nd.timestamp)]
  cases hretS : retireStep st.sValues t SHORT_TERM st.lastSHORT st.tiedbucketsSHORT with
  | none =>
    simp only [updateSlabMK, hretM, hretS] at hup
    exact Option.noConfusion hup
  | some pS =>
    simp only [updateSlabMK, hretM, hretS] at hup
    have hst2 := (Option.some.inj hup).symm
    rw [hst2]
    refine ⟨?_, ?_, rfl⟩
    · show tiedCount (insertBucket (retireBucket st.tiedbucketsMID nd.value) v)
        nd.value = _
      rw [tiedCount_insertBucket, tiedCount_retireBucket _ _ _ hmem]
      split_ifs <;> omega
    · show nd.value ∈
        (insertBucket (retireBucket st.tiedbucketsMID nd.value) v).map Bucket.value
      apply mem_insertBucket_vals
      rw [retireBucket_vals]
      exact hmem

/-- C5 amended: on a subsequent sample at time `t` the boundary retirement is
a single conditional step per bounded horizon (an `if`, not a `while`): if the
sample referenced by the boundary has `timestamp < t - window`, its value's
bucket is decremented by exactly one (and kept, even at zero), and the
boundary advances to the next-newer node (NULL when the referenced node was
the head).  In particular, for samples injected at a 1000s interval against
the 900s short-term window, after the second sample the first sample's tie
count in the short-term histogram has been decremented exactly once (1 to 0)
while the mid-term and total histograms retain it. -/
theorem mk_C5 :
    (∀ (st st2 : SlabMK) (t v : Int) (i : Nat) (nd : Sample),
       updateSlabMK st t v = some st2 →
       st.lastSHORT = some i → nodeAt st.sValues i = some nd →
       nd.timestamp < t - SHORT_TERM →
       nd.value ∈ st.tiedbucketsSHORT.map Bucket.value →
       tiedCount st2.tiedbucketsSHORT nd.value =
         tiedCount st.tiedbucketsSHORT nd.value - 1 +
           (if nd.value = v then 1 else 0) ∧
       nd.value ∈ st2.tiedbucketsSHORT.map Bucket.value ∧
       st2.lastSHORT = (if i + 1 < st.sValues.length then some (i + 1) else none)) ∧
    (∀ (st st2 : SlabMK) (t v : Int) (i : Nat) (nd : Sample),
       updateSlabMK st t v = some st2 →
       st.lastMID = some i → nodeAt st.sValues i = some nd →
       nd.timestamp < t - MID_TERM →
       nd.value ∈ st.tiedbucketsMID.map Bucket.value →
       tiedCount st2.tiedbucketsMID nd.value =
         tiedCount st.tiedbucketsMID nd.value - 1 +
           (if nd.value = v then 1 else 0) ∧
       nd.value ∈ st2.tiedbucketsMID.map Bucket.value ∧
       st2.lastMID = (if i + 1 < st.sValues.length then some (i + 1) else none)) ∧
    (tiedCount ((runTrace [(0, 10), (1000, 20)]).getD dflt).tiedbucketsSHORT 10 = 0 ∧
     (searchBucket ((runTrace [(0, 10), (1000, 20)]).getD dflt).tiedbucketsSHORT
        10).isSome = true ∧
     tiedCount ((runTrace [(0, 10), (1000, 20)]).getD dflt).tiedbucketsMID 10 = 1 ∧
     tiedCount ((runTrace [(0, 10), (1000, 20)]).getD dflt).tiedbucketsTotal 10 = 1 ∧
     ((runTrace [(0, 10), (1000, 20)]).getD dflt).lastSHORT = none) :=
  ⟨update_short_retire, update_mid_retire, by decide, by decide, by decide,
    by decide, by decide⟩

/-- Closed witness for `mk_C5`: the single-step retirement applied to the
second cycle of the 1000s-interval scenario. -/
theorem mk_C5_witness :
    ({ timestamp := 0, value := 10 } : Sample).timestamp < 1000 - SHORT_TERM ∧
    tiedCount ((updateSlabMK (initSlabMK 0 10) 1000 20).getD dflt).tiedbucketsSHORT
        ({ timestamp := 0, value := 10 } : Sample).value =
      tiedCount (initSlabMK 0 10).tiedbucketsSHORT
          ({ timestamp := 0, value := 10 } : Sample).value - 1 +
        (if ({ timestamp := 0, value := 10 } : Sample).value = 20 then 1 else 0) ∧
    ((updateSlabMK (initSlabMK 0 10) 1000 20).getD dflt).lastSHORT =
      (if 0 + 1 < (initSlabMK 0 10).sValues.length then some (0 + 1) else none) := by
  have h := mk_C5.1 (initSlabMK 0 10)
    ((updateSlabMK (initSlabMK 0 10) 1000 20).getD dflt) 1000 20 0
    { timestamp := 0, value := 10 } rfl rfl rfl (by decide) (by decide)
  exact ⟨by decide, h.1, h.2.2⟩

/-! ### Strictly increasing series (C9) -/

theorem runTrace_length (tr : List (Int × Int)) (st : SlabMK)
    (h : runTrace tr = some st) : st.sValues.length = tr.length := by
  obtain ⟨hsv, -⟩ := runTrace_StateInv tr st h
  rw [hsv, List.length_reverse, mkSamples, List.length_map]

theorem map_sign_all_lt (a : Sample) (rest : List Sample)
    (hlt : ∀ b ∈ rest, b.value < a.value) :
    (rest.map fun b => sign (a.value - b.value)).sum = (rest.length : Int) := by
  induction rest with
  | nil => simp
  | cons b bs ih =>
    have hb := hlt b (List.mem_cons_self b bs)
    have hs : sign (a.value - b.value) = 1 := by
      simp only [sign]
      rw [if_pos (by omega)]
    rw [List.map_cons, List.sum_cons, hs,
      ih (fun x hx => hlt x (List.mem_cons_of_mem _ hx))]
    simp only [List.length_cons]
    push_cast
    omega

theorem pairSigns_sorted (l : List Sample)
    (hs : List.Pairwise (fun a b : Sample => b.value < a.value) l) :
    2 * pairSigns l = (l.length : Int) * ((l.length : Int) - 1) := by
  induction l with
  | nil => simp [pairSigns]
  | cons a rest ih =>
    have hp := List.pairwise_cons.1 hs
    have ih2 := ih hp.2
    rw [pairSigns, map_sign_all_lt a rest hp.1]
    simp only [List.length_cons]
    push_cast
    push_cast at ih2
    linear_combination ih2

theorem sValues_pairwise (d : Int) (vs : List Int) (st : SlabMK)
    (hs : List.Pairwise (fun a b : Int => a < b) vs)
    (h : runTrace (ctrace d vs) = some st) :
    List.Pairwise (fun a b : Sample => b.value < a.value) st.sValues := by
  obtain ⟨hsv, -⟩ := runTrace_StateInv _ _ h
  rw [hsv, List.pairwise_reverse]
  have h2 : List.Pairwise (fun a b : Int => a < b)
      ((mkSamples (ctrace d vs)).map Sample.value) := by
    rw [ctrace, mkSamples_ctraceFrom_value]
    exact hs
  exact (List.pairwise_map).1 h2

theorem countIn_eq_zero (vs : List Int) (w : Int) (hw : w ∉ vs) :
    countIn vs w = 0 := by
  induction vs with
  | nil => rfl
  | cons x xs ih =>
    have h1 : ¬ (x = w) := by
      intro he
      exact hw (he ▸ List.mem_cons_self x xs)
    have h2 : w ∉ xs := fun hx => hw (List.mem_cons_of_mem _ hx)
    simp only [countIn, if_neg h1, ih h2]
    omega

theorem countIn_nodup (vs : List Int) (hnd : vs.Nodup) (w : Int) (hw : w ∈ vs) :
    countIn vs w = 1 := by
  induction vs with
  | nil => simp at hw
  | cons x xs ih =>
    have hn2 := List.nodup_cons.1 hnd
    rcases List.mem_cons.1 hw with h1 | h1
    · subst h1
      have hz : countIn xs w = 0 := countIn_eq_zero xs w hn2.1
      simp [countIn, hz]
    · have hx : ¬ (x = w) := by
        intro he
        exact hn2.1 (he ▸ h1)
      simp only [countIn, if_neg hx, ih hn2.2 h1]
      omega

theorem total_tied_one (d : Int) (vs : List Int) (st : SlabMK)
    (hnd : vs.Nodup) (h : runTrace (ctrace d vs) = some st) :
    ∀ b ∈ st.tiedbucketsTotal, b.tied = 1 := by
  obtain ⟨-, rM, rS, -, -, hT, -, -⟩ := runTrace_StateInv _ _ h
  intro b hb
  have h1 : b.tied = tiedCount st.tiedbucketsTotal b.value :=
    tied_eq_tiedCount _ hT.2.2.1 b hb
  have h2 := hT.1 b.value
  have h3 : b.value ∈ (ctrace d vs).map Prod.snd :=
    hT.2.2.2.1 b.value (List.mem_map_of_mem _ hb)
  rw [ctrace, ctraceFrom_map_snd] at h3
  have h4 : countVal (ctrace d vs) b.value = countIn vs b.value := by
    rw [ctrace, countVal_ctraceFrom]
  have h5 := countIn_nodup vs hnd b.value h3
  simp only [List.take_zero] at h2
  rw [h1, h2, h4, h5]
  rfl

theorem secondPartVar_eq_zero (h : List Bucket) (h1 : ∀ b ∈ h, b.tied = 1) :
    secondPartVar h = 0 := by
  induction h with
  | nil => rfl
  | cons b bs ih =>
    have hb := h1 b (List.mem_cons_self b bs)
    have hbs := ih fun x hx => h1 x (List.mem_cons_of_mem _ hx)
    simp only [secondPartVar, hb, hbs]
    norm_num

theorem raw_trend_yes (r : RawStats) (ha : r.accum = 435) (hc : r.counter = 30)
    (hfp : r.firstPart = firstPartVar r.counter) (hsp : r.secondPart = 0)
    (hv : r.varS = varOf r.counter r.firstPart r.secondPart) :
    criticalValue < zOf r ∧ trendOf r = "YES" := by
  have hvv : r.varS = (9425 : ℚ) / 3 := by
    rw [hv, hfp, hc, hsp]
    rw [varOf, firstPartVar]
    norm_num
  have hz : zOf r = (434 : ℝ) / Real.sqrt ((9425 : ℝ) / 3) := by
    unfold zOf
    rw [hc, ha, hvv]
    rw [if_pos (by norm_num), if_neg (by norm_num), if_pos (by norm_num)]
    push_cast
    norm_num
  have hpos : (0 : ℝ) < Real.sqrt ((9425 : ℝ) / 3) := Real.sqrt_pos.2 (by norm_num)
  have hlt : Real.sqrt ((9425 : ℝ) / 3) < 10850 / 49 := by
    rw [Real.sqrt_lt' (by norm_num : (0 : ℝ) < 10850 / 49)]
    norm_num
  have hgt : criticalValue < zOf r := by
    rw [hz, criticalValue, lt_div_iff hpos]
    linarith
  refine ⟨hgt, ?_⟩
  have hz0 : (0 : ℝ) < zOf r := by
    have hcpos : (0 : ℝ) < criticalValue := by
      rw [criticalValue]
      norm_num
    exact lt_trans hcpos hgt
  unfold trendOf
  rw [abs_of_pos hz0, if_pos hgt, if_pos hz0]

/-- C9: for any strictly increasing, pairwise distinct values sampled at a
constant interval, the total horizon yields `S = k(k-1)/2`, every bucket of
the total histogram has `tied = 1`, and (for `k > 1`) the variance is
`k(k-1)(2k+5)/18`; for `k = 30` with values `1..30` at the default 30s delay,
all thirty samples lie inside every horizon's window at the last cycle, the
z-score exceeds the default critical value 1.96, and the trend flag is
`"YES"` for every horizon. -/
theorem mk_C9 :
    (∀ (d t : Int) (vs : List Int) (st : SlabMK),
       List.Pairwise (fun a b : Int => a < b) vs →
       runTrace (ctrace d vs) = some st →
       2 * (outerScan t st.sValues).1 =
         (vs.length : Int) * ((vs.length : Int) - 1) ∧
       (outerScan t st.sValues).1 =
         (vs.length : Int) * ((vs.length : Int) - 1) / 2 ∧
       (∀ b ∈ st.tiedbucketsTotal, b.tied = 1) ∧
       (1 < (rawTotal t st).counter →
         (rawTotal t st).varS =
           (((vs.length : Int) * ((vs.length : Int) - 1) *
             (2 * (vs.length : Int) + 5) : Int) : ℚ) / 18)) ∧
    (∀ st : SlabMK, runTrace trace30 = some st →
       (criticalValue < zOf (rawTotal 870 st) ∧ trendOf (rawTotal 870 st) = "YES") ∧
       (criticalValue < zOf (rawMID 870 st) ∧ trendOf (rawMID 870 st) = "YES") ∧
       (criticalValue < zOf (rawSHORT 870 st) ∧ trendOf (rawSHORT 870 st) = "YES")) := by
  constructor
  · intro d t vs st hsort hrun
    have hnodup : vs.Nodup := hsort.imp fun hab => ne_of_lt hab
    have hpw := sValues_pairwise d vs st hsort hrun
    have hlen2 : st.sValues.length = vs.length := by
      rw [runTrace_length _ _ hrun, ctrace, length_ctraceFrom]
    have h2S : 2 * (outerScan t st.sValues).1 =
        (vs.length : Int) * ((vs.length : Int) - 1) := by
      have h3 := pairSigns_sorted st.sValues hpw
      rw [hlen2] at h3
      calc 2 * (outerScan t st.sValues).1
          = 2 * pairSigns st.sValues := by rw [outerScan_eq]
        _ = (vs.length : Int) * ((vs.length : Int) - 1) := h3
    refine ⟨h2S, ?_, total_tied_one d vs st hnodup hrun, ?_⟩
    · rw [← h2S, Int.mul_ediv_cancel_left _ (by norm_num : (2 : Int) ≠ 0)]
    · intro hc
      have htied := total_tied_one d vs st hnodup hrun
      have hsp : secondPartVar st.tiedbucketsTotal = 0 :=
        secondPartVar_eq_zero _ htied
      have hcc : (rawTotal t st).counter = (vs.length : Int) := by
        show ((st.sValues.length : Nat) : Int) = ((vs.length : Nat) : Int)
        rw [hlen2]
      rw [show (rawTotal t st).varS = varOf (rawTotal t st).counter
          (rawTotal t st).firstPart (rawTotal t st).secondPart from rfl]
      rw [show (rawTotal t st).firstPart =
          firstPartVar (rawTotal t st).counter from rfl]
      rw [show (rawTotal t st).secondPart =
          secondPartVar st.tiedbucketsTotal from rfl]
      rw [hcc] at hc
      rw [hsp, hcc, varOf, if_pos hc, firstPartVar, if_pos hc]
      norm_num
  · intro st h
    have hst : (runTrace trace30).getD dflt = st := by
      rw [h]
      rfl
    rw [← hst]
    refine ⟨raw_trend_yes _ ?_ ?_ rfl ?_ rfl, raw_trend_yes _ ?_ ?_ rfl ?_ rfl,
      raw_trend_yes _ ?_ ?_ rfl ?_ rfl⟩
    · decide
    · decide
    · decide
    · decide
    · decide
    · decide
    · decide
    · decide
    · decide

/-- Closed witness for `mk_C9`: the general statement applied to the strictly
increasing two-sample trace `5, 7` at delay 30. -/
theorem mk_C9_witness :
    List.Pairwise (fun a b : Int => a < b) [5, 7] ∧
    (∀ b ∈ ((runTrace (ctrace 30 [5, 7])).getD dflt).tiedbucketsTotal,
      b.tied = 1) ∧
    2 * (outerScan 30 ((runTrace (ctrace 30 [5, 7])).getD dflt).sValues).1 =
      (([5, 7] : List Int).length : Int) * ((([5, 7] : List Int).length : Int) - 1) :=
  ⟨by decide,
    (mk_C9.1 30 30 [5, 7] ((runTrace (ctrace 30 [5, 7])).getD dflt)
      (by decide) rfl).2.2.1,
    (mk_C9.1 30 30 [5, 7] ((runTrace (ctrace 30 [5, 7])).getD dflt)
      (by decide) rfl).1⟩

end SlabDaemon
